import Mathlib

/-!
Verification of the structured-data codec, task-lifecycle and teardown
machinery of the `tb/cocotb_utils.py` testbench core.

The Python code is shallowly embedded: an `SVStruct` subclass (a dataclass
whose fields are either nested `SVStruct`s or fixed-width `CheckedLogicArray`
leaves) becomes a `Schema`; an instance of such a dataclass becomes a `Value`.
A cocotb `LogicArray` with range `(n-1) downto 0` is modelled as a
`List Bool` of length `n` listed most-significant bit first, so that
`cocotb.types.concat a b` (which places `a` at the more significant side)
is list append.
-/

namespace XC

/-- Schema of an `SVStruct` subclass: a field is either a `CheckedLogicArray`
leaf of a declared bit width, or a nested `SVStruct` record with named fields
in declaration order. -/
inductive Schema : Type where
  | leaf (width : Nat)
  | record (fields : List (String × Schema))

/-- A runtime value of an `SVStruct` dataclass: leaves hold the bit pattern of
the stored `LogicArray` (most-significant bit first); records hold the field
values in declaration order. -/
inductive Value : Type where
  | leaf (bits : List Bool)
  | record (fields : List (String × Value))

mutual

/-- `SVStruct.bits()`: total width, the recursive sum of field widths in
declaration order (`cocotb_utils.py` lines 130-146). -/
def Schema.bits : Schema → Nat
  | .leaf w => w
  | .record fs => bitsFields fs

/-- The loop body of `SVStruct.bits()`: sums the widths of a field list. -/
def bitsFields : List (String × Schema) → Nat
  | [] => 0
  | (_, s) :: rest => s.bits + bitsFields rest

end

mutual

/-- `SVStruct.into_logicarray()` (lines 254-270): concatenate the fields'
`LogicArray`s in declaration order via `reduce(concat, raw)`; the first
declared field lands at the most significant side.  (`reduce` on an empty
list raises, so well-formedness requires records to be non-empty.) -/
def intoBits : Value → List Bool
  | .leaf bs => bs
  | .record fs => intoBitsFields fs

/-- Concatenation of the encodings of a field list, first field first
(= most significant). -/
def intoBitsFields : List (String × Value) → List Bool
  | [] => []
  | (_, v) :: rest => intoBits v ++ intoBitsFields rest

end

/-- `raw[msb:lsb]` on a `LogicArray` whose range is `(len-1) downto 0`:
the sub-vector of bit positions `msb` down to `lsb`.  In the
most-significant-first list model, range position `j` lives at list index
`len - 1 - j`. -/
def laSlice (raw : List Bool) (msb lsb : Nat) : List Bool :=
  (raw.drop (raw.length - 1 - msb)).take (msb - lsb + 1)

mutual

/-- `SVStruct.from_logicarray(raw)` (lines 214-239): walk the fields in
`reversed(fields)` order with a running `offset` from the least-significant
end, slicing `raw[offset+field_bits-1:offset]` for each field; nested records
recurse, leaves store the slice.  The reversed loop is realized here as
structural recursion that processes the declared-order tail first, which
visits the fields in exactly the source's order with the same offsets. -/
def fromBits : Schema → List Bool → Value
  | .leaf _, raw => .leaf raw
  | .record sfs, raw => .record (fromBitsFields sfs raw).2

/-- Processes a field list against `raw`; returns the offset accumulated by
the source's reversed loop over this list (= sum of these fields' widths)
together with the decoded fields in declaration order. -/
def fromBitsFields : List (String × Schema) → List Bool → Nat × List (String × Value)
  | [], _ => (0, [])
  | (n, s) :: rest, raw =>
      let t := fromBitsFields rest raw
      let w := s.bits
      (t.1 + w, (n, fromBits s (laSlice raw (t.1 + w - 1) t.1)) :: t.2)

end

/-- The named-signal tree a value is written to / read from: one handle per
leaf, children addressed by field name (`getattr(signal, field_name)`). -/
inductive SignalTree : Type where
  | leaf (bits : List Bool)
  | node (children : List (String × SignalTree))

mutual

/-- `SVStruct.write_to_signal(signal)` (lines 241-252), non-Verilator branch:
each nested record recurses into the like-named child signal, each leaf value
is assigned to its own named signal.  The result is the signal tree as driven. -/
def writeToSignal : Value → SignalTree
  | .leaf bs => .leaf bs
  | .record fs => .node (writeFields fs)

/-- Field loop of `write_to_signal`. -/
def writeFields : List (String × Value) → List (String × SignalTree)
  | [] => []
  | (n, v) :: rest => (n, writeToSignal v) :: writeFields rest

end

/-- `getattr(signal, name)`: child lookup by name in a signal tree node. -/
def childNamed (cs : List (String × SignalTree)) (n : String) : Option SignalTree :=
  match cs with
  | [] => none
  | (m, t) :: rest => if m = n then some t else childNamed rest n

mutual

/-- `SVStruct.from_signal(signal)` (lines 148-168), non-Verilator branch:
for each declared field, read the like-named child signal; records recurse,
leaves read the signal's value.  A missing or wrongly-shaped child is a
lookup failure (`getattr` raising), modelled as `none`. -/
def fromSignal : Schema → SignalTree → Option Value
  | .leaf _, .leaf bs => some (.leaf bs)
  | .leaf _, .node _ => none
  | .record _, .leaf _ => none
  | .record sfs, .node cs => (fromSignalFields sfs cs).map .record

/-- Field loop of `from_signal`. -/
def fromSignalFields : List (String × Schema) → List (String × SignalTree) → Option (List (String × Value))
  | [], _ => some []
  | (n, s) :: rest, cs =>
      match childNamed cs n with
      | none => none
      | some c =>
          match fromSignal s c with
          | none => none
          | some v =>
              match fromSignalFields rest cs with
              | none => none
              | some vs => some ((n, v) :: vs)

end

mutual

/-- The flat bit image of a signal tree: leaves concatenated in field order,
first field most significant (how the packed Verilator bus lays out the same
struct). -/
def treeBits : SignalTree → List Bool
  | .leaf bs => bs
  | .node cs => treeBitsFields cs

/-- Field loop of `treeBits`. -/
def treeBitsFields : List (String × SignalTree) → List Bool
  | [] => []
  | (_, t) :: rest => treeBits t ++ treeBitsFields rest

end

/-- Field names of a record are pairwise distinct (Python class bodies cannot
declare the same dataclass field twice). -/
def namesNodup : List (String × Schema) → Bool
  | [] => true
  | (n, _) :: rest => rest.all (fun p => p.1 != n) && namesNodup rest

mutual

/-- Well-formedness of a value for a schema: leaf bit patterns have exactly
the declared (positive) width, records are non-empty (`reduce(concat, ...)`
raises on an empty field list), have pairwise-distinct field names, and the
field values match the field schemas name-for-name in declaration order. -/
def wf : Schema → Value → Bool
  | .leaf w, .leaf bs => (bs.length == w) && (w != 0)
  | .record sfs, .record vfs => (!sfs.isEmpty) && namesNodup sfs && wfFields sfs vfs
  | _, _ => false

/-- Pointwise well-formedness of a field list. -/
def wfFields : List (String × Schema) → List (String × Value) → Bool
  | [], [] => true
  | (n, s) :: sfs, (m, v) :: vfs => (n == m) && wf s v && wfFields sfs vfs
  | _, _ => false

end

/-- The unsigned integer a bit vector (most-significant first) denotes. -/
def bitsToNat (bs : List Bool) : Nat :=
  bs.foldl (fun a b => 2 * a + (if b then 1 else 0)) 0

/-- `value[first:second]` on the big-endian `BinaryValue` returned by
`signal.value`: index `0` is the most significant character, slice indices
must be given low-to-high, and the slice selects the characters at string
positions `first .. second` inclusive (counted from the MSB end) — not bit
significances. -/
def bvSlice (raw : List Bool) (first second : Nat) : List Bool :=
  (raw.drop first).take (second - first + 1)

/-- `SVStruct.from_array_signal_single(signal, index)` (lines 170-184),
Verilator branch: the target exposes one wide concatenated vector; the code
computes `lsb = element_bits * (array_length - index - 1)`,
`msb = lsb + element_bits - 1` and slices `signal.value[lsb:msb]`.
`signal.value` is a big-endian `BinaryValue`, so `lsb` and `msb` are
character offsets from the most significant end: the slice returns the
`element_bits` characters starting `lsb` places below the MSB, i.e. the
significance range `[total_bits - lsb - 1 : total_bits - msb - 1]`. -/
def fromArraySignalSingle (s : Schema) (signalVal : List Bool) (index : Nat) : Value :=
  let elementBits := s.bits
  let totalBits := signalVal.length
  let arrayLength := totalBits / elementBits
  let rIndex := arrayLength - index - 1
  let lsb := elementBits * rIndex
  let msb := lsb + elementBits - 1
  fromBits s (bvSlice signalVal lsb msb)

/-- A small schema mirroring `Message` (nested `meta` record, then `data`),
with reduced widths; used as a concrete witness input. -/
def msgSchemaFields : List (String × Schema) :=
  [("meta", .record [("tag", .leaf 2), ("address", .leaf 3)]), ("data", .leaf 4)]

/-- The `Message`-like example schema as a record schema. -/
def msgSchema : Schema := .record msgSchemaFields

/-- A concrete well-formed value of `msgSchema`. -/
def msgValue : Value :=
  .record [("meta", .record [("tag", .leaf [true, false]),
                             ("address", .leaf [false, true, true])]),
           ("data", .leaf [true, false, false, true])]

/-- An 8-bit single-field element schema (the spec's array-addressing
example: width 8, packed 4-wide into one 32-bit vector). -/
def elem8Schema : Schema := .record [("b", .leaf 8)]

/-- Four distinct 8-bit element values, packed into a 32-bit vector. -/
def elemVals : List Value :=
  [ .record [("b", .leaf [true, false, false, false, false, false, false, true])],
    .record [("b", .leaf [false, true, false, false, false, false, true, false])],
    .record [("b", .leaf [false, false, true, false, false, true, false, false])],
    .record [("b", .leaf [false, false, false, true, true, false, false, false])] ]

/-! ## Flat keyword construction (`from_flat`, `__unflatten`, `quick`)

Python's `k.split('-')` yields the list `namespace_parts ++ [true_key]` of
dash-free components; a dotted/dashed name is therefore modelled already
split, as a `Key = (namespace_parts, true_key)`.  The name contains a dash
iff `namespace_parts` is non-empty.  Python `dict`s are modelled as
insertion-ordered association lists with unique keys. -/

/-- A dashed field name, already split: `('a-b-c')` is `(["a","b"], "c")`. -/
abbrev Key : Type := List String × String

/-- A value inside the (possibly unflattened) keyword mapping: either an
integer payload or a nested mapping. -/
inductive KW : Type where
  | val (i : Int)
  | dict (entries : List (String × KW))

/-- Python `d[k]` lookup (first and only match, insertion order). -/
def dsGet (d : List (String × KW)) (k : String) : Option KW :=
  match d with
  | [] => none
  | (m, v) :: rest => if m = k then some v else dsGet rest k

/-- Python `d[k] = v`: update in place if the key exists, else append. -/
def dsSet (d : List (String × KW)) (k : String) (v : KW) : List (String × KW) :=
  match d with
  | [] => [(k, v)]
  | (m, w) :: rest => if m = k then (m, v) :: rest else (m, w) :: dsSet rest k v

/-- One iteration of `SVStruct.__unflatten` (lines 89-102): walk the
namespace parts with `cursor.setdefault(part, dict())`, then assign
`cursor[true_k] = v`.  `setdefault` hitting an existing *integer* makes the
subsequent subscripting raise (`none`). -/
def insertPath : List (String × KW) → List String → String → Int → Option (List (String × KW))
  | d, [], tk, v => some (dsSet d tk (.val v))
  | d, p :: ps, tk, v =>
      match dsGet d p with
      | some (.dict d2) => (insertPath d2 ps tk v).map (fun d3 => dsSet d p (.dict d3))
      | some (.val _) => none
      | none => (insertPath [] ps tk v).map (fun d3 => dsSet d p (.dict d3))

/-- The fold of `__unflatten` over the remaining entries, from an
accumulated dictionary. -/
def unflattenFrom : List (String × KW) → List (Key × Int) → Option (List (String × KW))
  | acc, [] => some acc
  | acc, e :: rest =>
      match insertPath acc e.1.1 e.1.2 e.2 with
      | none => none
      | some acc2 => unflattenFrom acc2 rest

/-- `SVStruct.__unflatten(flatkw)`: nest a flat dashed-name mapping. -/
def unflatten (flat : List (Key × Int)) : Option (List (String × KW)) :=
  unflattenFrom [] flat

/-- The value stored in a constructed dataclass by `from_flat`: leaves hold
the raw integer payload handed to the field (conversion to a fixed-width
`LogicArray` is `CheckedLogicArray`'s deterministic job and is not inspected
by any of the name-plumbing claims). -/
inductive FValue : Type where
  | leaf (payload : Int)
  | record (fields : List (String × FValue))

/-- Errors surfaced by `from_flat`: `KeyError(name)` for a missing field
name, `TypeError` for an integer/dict shape clash. -/
inductive PyErr : Type where
  | keyError (name : String)
  | typeError

mutual

/-- The field loop of `SVStruct.from_flat` (lines 104-124): for each declared
field look up its name in the mapping (`KeyError` when absent); a record
field whose entry is a nested mapping recurses via `from_flat`; any other
entry is assigned to the field as-is.  The recursive `from_flat` call on a
sub-mapping skips re-unflattening because component names are dash-free.
In the source a dict assigned to a leaf field is rejected by
`CheckedLogicArray.__set__` at `cls(**kw)`-time, after the whole loop; it is
modelled inline at the field's loop position, which can only change *which*
error is reported when a dict-valued leaf entry and a later missing field
coexist. -/
def fromFlatFields : List (String × Schema) → List (String × KW) → Except PyErr (List (String × FValue))
  | [], _ => .ok []
  | (n, fs) :: rest, kw =>
      match dsGet kw n with
      | none => .error (.keyError n)
      | some v =>
          match fieldFromFlat fs v with
          | .error e => .error e
          | .ok fv =>
              match fromFlatFields rest kw with
              | .error e => .error e
              | .ok tail => .ok ((n, fv) :: tail)

/-- How one field consumes its mapping entry (see `fromFlatFields`). -/
def fieldFromFlat : Schema → KW → Except PyErr FValue
  | .record sfs, .dict d => (fromFlatFields sfs d).map .record
  | .record _, .val i => .ok (.leaf i)
  | .leaf _, .val i => .ok (.leaf i)
  | .leaf _, .dict _ => .error .typeError

end

/-- `SVStruct.from_flat(**kwargs)` on a schema's field list: unflatten only
if some name contains a dash, then run the field loop and construct the
dataclass value. -/
def pyFromFlat (sfs : List (String × Schema)) (flat : List (Key × Int)) : Except PyErr FValue :=
  if flat.any (fun e => !e.1.1.isEmpty) then
    match unflatten flat with
    | none => .error .typeError
    | some d => (fromFlatFields sfs d).map .record
  else
    (fromFlatFields sfs (flat.map (fun e => (e.1.2, KW.val e.2)))).map .record

/-- `SVStruct.quick(*args)` (lines 126-128): zip the positional arguments
onto the class's declared `quick_args` names and delegate to `from_flat`.
(The source's dict comprehension deduplicates repeated names last-wins;
the declared orders are duplicate-free, which the equivalence theorem
assumes, so a plain zip is faithful.) -/
def quick (sfs : List (String × Schema)) (quickArgs : List Key) (args : List Int) : Except PyErr FValue :=
  pyFromFlat sfs (quickArgs.zip args)

mutual

/-- The dashed names of the leaves of a single field named `n` under a
namespace prefix. -/
def leafPathsField : List String → String → Schema → List Key
  | pref, n, .leaf _ => [((pref, n) : Key)]
  | pref, n, .record sfs => leafPathsFields (pref ++ [n]) sfs

/-- The dashed names of all leaves of a field list under a namespace prefix,
depth-first in declaration order. -/
def leafPathsFields : List String → List (String × Schema) → List Key
  | _, [] => []
  | pref, (n, s) :: rest => leafPathsField pref n s ++ leafPathsFields pref rest

end

/-- Restrict a flat assignment to the entries under namespace component `c`,
stripping that leading component. -/
def stripNS (c : String) (A : List (Key × Int)) : List (Key × Int) :=
  A.filterMap (fun e =>
    match e.1.1 with
    | [] => none
    | p :: ps => if p = c then some (((ps, e.1.2), e.2) : Key × Int) else none)

/-- First-match lookup of a full dashed name in a flat assignment list. -/
def keyLookup (A : List (Key × Int)) (k : Key) : Option Int :=
  match A with
  | [] => none
  | (k2, v) :: rest => if k2 = k then some v else keyLookup rest k

mutual

/-- Modelled from the spec: "constructing the same value field-by-field in
that declared order" — the field-by-field construction of one field named
`n`: a leaf field receives the integer assigned to its full dashed name, a
record field recurses with its name pushed onto the namespace (realized by
stripping the leading component from the keys).  This is the reference
constructor the quick-constructor claim compares against; it is not part of
the source. -/
def specBuildField : String → Schema → List (Key × Int) → Option FValue
  | n, .leaf _, A =>
      match keyLookup A (([] : List String), n) with
      | none => none
      | some i => some (FValue.leaf i)
  | n, .record sfs, A =>
      match specBuildFields sfs (stripNS n A) with
      | none => none
      | some sub => some (FValue.record sub)

/-- See `specBuildField`: constructing a record value field by field from
the dashed-name assignments. -/
def specBuildFields : List (String × Schema) → List (Key × Int) → Option (List (String × FValue))
  | [], _ => some []
  | (n, s) :: rest, A =>
      match specBuildField n s A with
      | none => none
      | some v =>
          match specBuildFields rest A with
          | none => none
          | some t => some ((n, v) :: t)

end

/-- The leading name component of a split dashed name. -/
def headName (k : Key) : String :=
  match k.1 with
  | [] => k.2
  | c :: _ => c

/-- No full dashed name is a namespace prefix of another name in the list:
what makes `__unflatten`'s `setdefault` walk never hit an already-stored
integer.  Holds for the leaf-name sets of well-formed schemas. -/
def PrefixFree (ks : List Key) : Prop :=
  ∀ k1 ∈ ks, ∀ k2 ∈ ks, ¬ (k1.1 ++ [k1.2]) <+: k2.1

/-- The names (first components) of a flat assignment list. -/
def keysOf (A : List (Key × Int)) : List Key := A.map Prod.fst

/-- The invariant relating a flat assignment list to the nested dictionary
`__unflatten` builds from it: a name stored at the top level appears as the
same integer entry; a name group appears as a sub-dictionary representing
the stripped assignments under it. -/
inductive TrieRepr : List (Key × Int) → List (String × KW) → Prop where
  | intro {A : List (Key × Int)} {D : List (String × KW)}
      (hval : ∀ c v, keyLookup A ([], c) = some v ↔ dsGet D c = some (KW.val v))
      (hdict : ∀ c, (∃ e ∈ A, ∃ ps tk, e.1 = (c :: ps, tk)) ↔
        (∃ D2, dsGet D c = some (KW.dict D2)))
      (hsub : ∀ c D2, dsGet D c = some (KW.dict D2) → TrieRepr (stripNS c A) D2) :
      TrieRepr A D

mutual

/-- Schema-only well-formedness: records are non-empty with pairwise
distinct field names (as Python dataclass declarations guarantee). -/
def swf : Schema → Bool
  | .leaf _ => true
  | .record sfs => (!sfs.isEmpty) && namesNodup sfs && swfFields sfs

/-- Field-list counterpart of `swf`. -/
def swfFields : List (String × Schema) → Bool
  | [] => true
  | (_, s) :: rest => swf s && swfFields rest

end

/-! ## Task teardown and failure aggregation -/

/-- The `ExceptionGroup` subclasses used by the testbench core. -/
inductive ExcClass : Type where
  | tbCleanup
  | tbCleanupAssertion
  | tbFailure
deriving DecidableEq

/-- A Python exception as teardown sees it: a plain exception (class name,
message, `add_note` annotations) or an exception group. -/
inductive PyExc : Type where
  | plain (kind : String) (msg : String) (notes : List String)
  | group (cls : ExcClass) (msg : String) (excs : List PyExc) (notes : List String)

/-- `e.add_note(note)`: appends to the note list. -/
def addNote : PyExc → String → PyExc
  | .plain k m ns, n => .plain k m (ns ++ [n])
  | .group c m es ns, n => .group c m es (ns ++ [n])

/-- The `__notes__` list of an exception. -/
def notesOf : PyExc → List String
  | .plain _ _ ns => ns
  | .group _ _ _ ns => ns

/-- The default message computed by `TBCleanupException.__new__`
(lines 302-315). -/
def cleanupMessage (count : Nat) (taskRepr : Option String) : String :=
  let t := if 1 < count then "Exceptions" else "An exception"
  match taskRepr with
  | some r => t ++ " occurred during cleanup of " ++ r
  | none => t ++ " occurred during cleanup of a task"

/-- `TBCleanupException(exceptions, task_repr, message)`. -/
def mkTBCleanupException (excs : List PyExc) (taskRepr : Option String)
    (message : Option String) : PyExc :=
  let msg :=
    match message with
    | some m => m
    | none => cleanupMessage excs.length taskRepr
  .group .tbCleanup msg excs []

/-- `TBCleanupAssertionError(exception, task_repr)` (lines 317-320). -/
def mkTBCleanupAssertionError (e : PyExc) (taskRepr : String) : PyExc :=
  .group .tbCleanupAssertion ("A cleanup-stage assertion failed in " ++ taskRepr) [e] []

/-- Outcome of awaiting `self.on_test_finish()` inside `stop` (source
distinguishes `AssertionError` from other `Exception`s). -/
inductive HookResult : Type where
  | ok
  | assertFail (e : PyExc)
  | excFail (e : PyExc)

/-- Awaiting `self.__task.join()` in `TBTask.stop`: the body coroutine's own
outcome is not routed to the joiner — cocotb delivers a task's unhandled
exception to the test via the scheduler, and `stop` has no handler around the
join — so the joined body contributes nothing to the collected exceptions. -/
def joinBody (_bodyOutcome : Option PyExc) : Unit := ()

/-- `TBTask.stop()` (lines 356-383): join (or kill) the body, collect each
child's returned cleanup fault, run `on_test_finish` catching
`AssertionError` / `Exception`, and return the single fault unwrapped when
it is alone and no child raised, else the `TBCleanupException` aggregate. -/
def taskStop (taskRepr : String) (bodyOutcome : Option PyExc)
    (childResults : List (Option PyExc)) (hook : HookResult) : Option PyExc :=
  let _ := joinBody bodyOutcome
  let childExcs := childResults.filterMap id
  let subtaskRaised := !childExcs.isEmpty
  let exceptions := childExcs ++
    (match hook with
     | .ok => []
     | .assertFail e => [mkTBCleanupAssertionError e taskRepr]
     | .excFail e => [mkTBCleanupException [e] (some taskRepr) none])
  if exceptions.length == 1 && !subtaskRaised then
    exceptions.head?
  else if !exceptions.isEmpty then
    some (mkTBCleanupException exceptions (some taskRepr) none)
  else
    none

mutual

/-- The underlying (non-group) faults contained in an exception,
flattening nested groups, in order. -/
def leafFaults : PyExc → List PyExc
  | .plain k m ns => [.plain k m ns]
  | .group _ _ es _ => leafFaultsList es

/-- List counterpart of `leafFaults`. -/
def leafFaultsList : List PyExc → List PyExc
  | [] => []
  | e :: rest => leafFaults e ++ leafFaultsList rest

end

/-- `leafFaults` of an optional fault. -/
def leafFaultsOpt : Option PyExc → List PyExc
  | none => []
  | some e => leafFaults e

/-- The underlying faults a hook outcome contributes to `stop`'s collection. -/
def hookLeaves : HookResult → List PyExc
  | .ok => []
  | .assertFail e => leafFaults e
  | .excFail e => leafFaults e

/-- The task-id order used by `AbstractTB.__stop_tasks` (lines 751-769):
the registered order, except that `'clock'` is moved to the end. -/
def stopOrder (taskIds : List String) : List String :=
  if "clock" ∈ taskIds then taskIds.erase "clock" ++ ["clock"] else taskIds

/-- The note `__stop_tasks` attaches to a task's cleanup fault. -/
def taskNote (id : String) : String := "Raised in task [" ++ id ++ "]"

/-- `self.tasks[id]` of the orchestrator's task mapping, here an assoc list
from task id to that task's `stop()` result. -/
def lookupTask (tasks : List (String × Option PyExc)) (id : String) : Option (Option PyExc) :=
  match tasks with
  | [] => none
  | (m, r) :: rest => if m = id then some r else lookupTask rest id

/-- `AbstractTB.__stop_tasks()`: stop every task in `stopOrder`, annotate
each returned fault with its task id, and wrap the non-empty collection in a
`TBCleanupException` with the TB-cleanup message. -/
def stopTasks (tasks : List (String × Option PyExc)) : Option PyExc :=
  let orderedIds := stopOrder (tasks.map Prod.fst)
  let cleanupExcs := orderedIds.filterMap (fun id =>
    match lookupTask tasks id with
    | some (some e) => some (addNote e (taskNote id))
    | _ => none)
  if cleanupExcs.isEmpty then none
  else
    let t := if 1 < cleanupExcs.length then "Exceptions" else "An exception"
    some (mkTBCleanupException cleanupExcs none (some (t ++ " occurred during TB cleanup")))

/-- Whether a Python exception is an `AssertionError`. -/
def isAssertionError : PyExc → Bool
  | .plain k _ _ => k == "AssertionError"
  | .group _ _ _ _ => false

/-- `AbstractTB.__aexit__` (lines 771-791): annotate a body exception, run
`__stop_tasks`, and raise `TBFailure('Test failed', …)` if anything failed
(`none` = clean exit). -/
def aexitFailure (bodyExc : Option PyExc) (tasks : List (String × Option PyExc)) : Option PyExc :=
  let bodyList :=
    match bodyExc with
    | none => []
    | some e =>
        let e2 := addNote e "Raised in TB body"
        let e3 :=
          if isAssertionError e then e2
          else addNote e2 "CRITICAL: Not an assertion error, test may be ill defined"
        [e3]
  let excs := bodyList ++ (match stopTasks tasks with | none => [] | some f => [f])
  if excs.isEmpty then none else some (.group .tbFailure "Test failed" excs [])

/-! ## Queue states and the synthetic clock -/

/-- `QueueState` (lines 482-485). -/
inductive QueueState : Type where
  | EMPTY
  | PARTIAL
  | FULL
deriving DecidableEq

/-- cocotb `Queue.empty()`: no items. -/
def queueEmpty (len : Nat) : Bool := len == 0

/-- cocotb `Queue.full()`: a queue constructed with `maxsize <= 0`
(the drivers use `Queue()`, i.e. unbounded) is never full. -/
def queueFull (len maxsize : Nat) : Bool := (maxsize != 0) && Nat.ble maxsize len

/-- `ValRdyDriver.queue_state` (lines 535-542). -/
def driverQueueState (len maxsize : Nat) : QueueState :=
  if queueEmpty len then .EMPTY
  else if queueFull len maxsize then .FULL
  else .PARTIAL

/-- `ValRdyProducer.queue_state` (lines 608-617): a head value latched on
the wire (`val` still asserted) counts as occupying the queue even when the
container is empty. -/
def producerQueueState (len maxsize : Nat) (valWire : Bool) : QueueState :=
  if queueEmpty len && !valWire then .EMPTY
  else if queueFull len maxsize then .FULL
  else .PARTIAL

/-- `ValRdyDriver.on_test_finish` (lines 575-577) asserts
`queue_state == QueueState.EMPTY`; the assertion fires iff the state is not
`EMPTY`. -/
def onTestFinishFault (qs : QueueState) : Bool := qs != .EMPTY

/-- `FakeClock._task_coroutine` (lines 412-428): `state` starts `True` and
is toggled at the top of every loop iteration before the corresponding edge
event is emitted (`True` after toggling = rising edge, `False` = falling);
the loop runs until the stop event is observed.  `fakeClockEdges n state`
is the list of edge emissions (`true` = rising) of `n` iterations. -/
def fakeClockEdges : Nat → Bool → List Bool
  | 0, _ => []
  | n + 1, state => (!state) :: fakeClockEdges n (!state)

/-- The emission trace of a `FakeClock` run of `n` loop iterations from the
initial `state = True`. -/
def fakeClockRun (n : Nat) : List Bool := fakeClockEdges n true

/-! ## Queue-state facts -/

/-- C9: a Consumer's or Producer's post-stop verification (`on_test_finish`)
raises iff its FIFO still holds unconsumed items at teardown — and for a
Producer, a head value latched on the wire (valid still asserted) counts as
occupying the queue even when the underlying container is empty. -/
theorem claim_C9_drained_queue (len maxsize : Nat) (valWire : Bool) :
    (onTestFinishFault (driverQueueState len maxsize) = true ↔ 0 < len) ∧
    (onTestFinishFault (producerQueueState len maxsize valWire) = true ↔
      (0 < len ∨ valWire = true)) := by
  have hfp : ∀ b : Bool,
      (if b = true then QueueState.FULL else QueueState.PARTIAL) ≠ QueueState.EMPTY := by
    intro b; cases b <;> simp
  constructor
  · simp only [onTestFinishFault, bne_iff_ne, ne_eq, driverQueueState, queueEmpty, beq_iff_eq]
    rcases len with _ | n
    · simp
    · simpa using hfp (queueFull (n + 1) maxsize)
  · simp only [onTestFinishFault, bne_iff_ne, ne_eq, producerQueueState, queueEmpty, beq_iff_eq]
    rcases len with _ | n <;> cases valWire
    · simp
    · simpa using hfp (queueFull 0 maxsize)
    · simpa using hfp (queueFull (n + 1) maxsize)
    · simpa using hfp (queueFull (n + 1) maxsize)

/-! ## Synthetic clock trace -/

/-- Edge `i` of a `FakeClock` run from state `s`: the toggled state at
iteration `i`, which flips every iteration. -/
theorem fakeClockEdges_get? : ∀ (n : Nat) (s : Bool) (i : Nat), i < n →
    (fakeClockEdges n s).get? i = some (s ^^ decide (i % 2 = 0))
  | 0, _, _, h => absurd h (Nat.not_lt_zero _)
  | n + 1, s, 0, _ => by
      simp [fakeClockEdges]
  | n + 1, s, i + 1, h => by
      have ih := fakeClockEdges_get? n (!s) i (by omega)
      have hd : decide ((i + 1) % 2 = 0) = !decide (i % 2 = 0) := by
        rcases Nat.mod_two_eq_zero_or_one i with hp | hp <;>
          simp [hp, Nat.succ_mod_two_eq_zero_iff, Nat.succ_mod_two_eq_one_iff]
      simp only [fakeClockEdges, List.get?_cons_succ, ih, hd, Bool.not_xor, Bool.xor_not]

/-- C10: the synthetic clock's coroutine toggles its state (initially
`True`) before each emission, so its very first edge notification is a
falling edge, and thereafter edges strictly alternate each half-period; the
run length `n` is the number of loop iterations performed before the stop
event is observed. -/
theorem claim_C10_fakeclock_edges (n : Nat) (hn : 0 < n) :
    (fakeClockRun n).get? 0 = some false ∧
    ∀ i, i + 1 < n → (fakeClockRun n).get? (i + 1) ≠ (fakeClockRun n).get? i := by
  constructor
  · have h := fakeClockEdges_get? n true 0 hn
    simpa [fakeClockRun] using h
  · intro i hi
    have h1 := fakeClockEdges_get? n true i (by omega)
    have h2 := fakeClockEdges_get? n true (i + 1) (by omega)
    unfold fakeClockRun at h1 h2 ⊢
    rw [h1, h2]
    rcases Nat.mod_two_eq_zero_or_one i with hp | hp <;>
      simp [hp, Nat.succ_mod_two_eq_zero_iff]

/-- C10 witness: a three-iteration run starts with a falling edge and
alternates. -/
theorem claim_C10_witness :
    (fakeClockRun 3).get? 0 = some false ∧
    ∀ i, i + 1 < 3 → (fakeClockRun 3).get? (i + 1) ≠ (fakeClockRun 3).get? i :=
  claim_C10_fakeclock_edges 3 (by decide)

/-! ## Task stop ordering (C7) -/

/-- C7: whatever the registration order, the orchestrator's exit sequence
stops the task registered as `'clock'` strictly after every other top-level
task: the stop order is a permutation of the registered ids whose last
element is `'clock'` and in which no earlier position is `'clock'`. -/
theorem claim_C7_clock_stopped_last (ids : List String)
    (hmem : "clock" ∈ ids) (hnd : ids.Nodup) :
    (stopOrder ids).getLast? = some "clock" ∧
    (∀ i, i + 1 < (stopOrder ids).length → (stopOrder ids).get? i ≠ some "clock") ∧
    (stopOrder ids).Perm ids := by
  unfold stopOrder
  rw [if_pos hmem]
  refine ⟨List.getLast?_concat _, ?_, ?_⟩
  · intro i hi hcontra
    have hlen : (ids.erase "clock" ++ ["clock"]).length = (ids.erase "clock").length + 1 := by
      simp
    have hi2 : i < (ids.erase "clock").length := by
      rw [hlen] at hi; omega
    rw [List.get?_append hi2] at hcontra
    exact hnd.not_mem_erase (List.get?_mem hcontra)
  · exact (List.perm_append_singleton _ _).trans (List.perm_cons_erase hmem).symm

/-- C7 witness: a concrete registration order with `clock` first. -/
theorem claim_C7_witness :
    (stopOrder ["clock", "a", "b"]).getLast? = some "clock" ∧
    (∀ i, i + 1 < (stopOrder ["clock", "a", "b"]).length →
      (stopOrder ["clock", "a", "b"]).get? i ≠ some "clock") ∧
    (stopOrder ["clock", "a", "b"]).Perm ["clock", "a", "b"] :=
  claim_C7_clock_stopped_last ["clock", "a", "b"] (by decide) (by decide)

/-! ## Task.stop fault aggregation (C6) -/

/-- `leafFaultsList` distributes over append. -/
theorem leafFaultsList_append : ∀ l1 l2 : List PyExc,
    leafFaultsList (l1 ++ l2) = leafFaultsList l1 ++ leafFaultsList l2
  | [], _ => rfl
  | e :: rest, l2 => by
      simp only [List.cons_append, leafFaultsList, List.append_eq,
        leafFaultsList_append rest l2, List.append_assoc]

/-- C6 counterexample: a body coroutine fault is not part of the optional
aggregated fault `stop()` returns — a task whose body raised, with no child
faults and a clean verification hook, yields `none`, so the body's exception
is not "returned as one optional aggregated fault" as the claim states. -/
theorem claim_C6_counterexample :
    taskStop "TaskA" (some (PyExc.plain "RuntimeError" "boom" [])) [] HookResult.ok = none := rfl

/-- C6 (amended): `stop()` never raises; it captures every exception
returned by a child's `stop` and every exception raised by the post-stop
verification hook, and returns exactly those underlying faults (body
coroutine faults are not routed through the join); when no child faulted,
a sole hook fault is returned as itself rather than wrapped again, and no
faults at all yield `none`. -/
theorem claim_C6_stop_aggregation (r : String) (body : Option PyExc)
    (children : List (Option PyExc)) (hook : HookResult) :
    leafFaultsOpt (taskStop r body children hook) =
      leafFaultsList (children.filterMap id) ++ hookLeaves hook ∧
    (children.filterMap id = [] →
      taskStop r body children hook =
        (match hook with
         | .ok => none
         | .assertFail e => some (mkTBCleanupAssertionError e r)
         | .excFail e => some (mkTBCleanupException [e] (some r) none))) := by
  unfold taskStop
  cases hcs : children.filterMap id with
  | nil =>
      cases hook <;>
        simp [leafFaultsOpt, leafFaults, leafFaultsList, hookLeaves,
          mkTBCleanupAssertionError, mkTBCleanupException, joinBody]
  | cons c cs =>
      cases hook <;>
        simp [leafFaultsOpt, leafFaults, leafFaultsList, hookLeaves,
          mkTBCleanupAssertionError, mkTBCleanupException, joinBody,
          leafFaultsList_append, Nat.succ_ne_zero]

/-- C6 witness: instantiation at one child fault and a clean hook. -/
theorem claim_C6_witness :
    leafFaultsOpt (taskStop "TaskA" none [some (PyExc.plain "AssertionError" "x" [])]
        HookResult.ok) =
      leafFaultsList ([some (PyExc.plain "AssertionError" "x" [])].filterMap id) ++
        hookLeaves HookResult.ok :=
  (claim_C6_stop_aggregation "TaskA" none [some (PyExc.plain "AssertionError" "x" [])]
    HookResult.ok).1

/-! ## Orchestrator teardown aggregation (C8) -/

/-- `addNote` appends to the note list. -/
theorem notesOf_addNote (e : PyExc) (n : String) : notesOf (addNote e n) = notesOf e ++ [n] := by
  cases e <;> rfl

/-- The per-task annotation is injective in the task id. -/
theorem taskNote_inj {a b : String} (h : taskNote a = taskNote b) : a = b := by
  unfold taskNote at h
  have hd := congrArg String.data h
  simp only [String.data_append] at hd
  exact String.ext (List.append_cancel_left (List.append_cancel_right hd))

/-- Annotating with different notes yields different exceptions. -/
theorem addNote_ne_of_note_ne {e1 e2 : PyExc} {n1 n2 : String} (h : n1 ≠ n2) :
    addNote e1 n1 ≠ addNote e2 n2 := by
  intro heq
  apply h
  have hn := congrArg notesOf heq
  rw [notesOf_addNote, notesOf_addNote] at hn
  have hl := congrArg List.getLast? hn
  rw [List.getLast?_concat, List.getLast?_concat] at hl
  exact Option.some.inj hl

/-- With distinct task ids, `self.tasks[id]` retrieves the registered entry. -/
theorem lookupTask_eq_of_mem (tasks : List (String × Option PyExc)) (a : String)
    (r : Option PyExc) (hnd : (tasks.map Prod.fst).Nodup) (hmem : (a, r) ∈ tasks) :
    lookupTask tasks a = some r := by
  induction tasks with
  | nil => cases hmem
  | cons hd tl ih =>
      obtain ⟨m, r0⟩ := hd
      simp only [List.map_cons, List.nodup_cons] at hnd
      rcases List.mem_cons.mp hmem with heq | htl
      · obtain ⟨rfl, rfl⟩ := Prod.mk.injEq .. ▸ heq
        simp [lookupTask]
      · have hne : m ≠ a := by
          rintro rfl
          exact hnd.1 (List.mem_map_of_mem Prod.fst htl)
        simp only [lookupTask, if_neg hne]
        exact ih hnd.2 htl

/-- Reordering for stop keeps every registered id. -/
theorem mem_stopOrder (ids : List String) (x : String) (hx : x ∈ ids) :
    x ∈ stopOrder ids := by
  unfold stopOrder
  split
  · rename_i hc
    have hx2 := (List.perm_cons_erase hc).subset hx
    rcases List.mem_cons.mp hx2 with h1 | h2
    · rw [h1]; simp
    · exact List.mem_append.mpr (Or.inl h2)
  · exact hx

/-- `__stop_tasks` wraps the collected annotated faults in one cleanup
group, and every task that returned a fault contributes its annotated fault
to that group. -/
theorem stopTasks_spec (tasks : List (String × Option PyExc))
    (hnd : (tasks.map Prod.fst).Nodup) (a : String) (f : PyExc)
    (ha : (a, some f) ∈ tasks) :
    ∃ msg excs, stopTasks tasks = some (PyExc.group ExcClass.tbCleanup msg excs []) ∧
      ∀ b g, (b, some g) ∈ tasks → addNote g (taskNote b) ∈ excs := by
  unfold stopTasks
  have hmemgen : ∀ b g, (b, some g) ∈ tasks →
      addNote g (taskNote b) ∈
        (stopOrder (tasks.map Prod.fst)).filterMap (fun id =>
          match lookupTask tasks id with
          | some (some e) => some (addNote e (taskNote id))
          | _ => none) := by
    intro b g hb
    apply List.mem_filterMap.mpr
    refine ⟨b, mem_stopOrder _ _ (List.mem_map_of_mem Prod.fst hb), ?_⟩
    rw [lookupTask_eq_of_mem tasks b (some g) hnd hb]
  have hmem := hmemgen a f ha
  have hne : ((stopOrder (tasks.map Prod.fst)).filterMap (fun id =>
      match lookupTask tasks id with
      | some (some e) => some (addNote e (taskNote id))
      | _ => none)).isEmpty = false := by
    rcases hh : (stopOrder (tasks.map Prod.fst)).filterMap (fun id =>
        match lookupTask tasks id with
        | some (some e) => some (addNote e (taskNote id))
        | _ => none) with _ | ⟨c, cs⟩
    · rw [hh] at hmem; cases hmem
    · rfl
  simp only [hne, Bool.false_eq_true, if_false, mkTBCleanupException]
  exact ⟨_, _, rfl, hmemgen⟩

/-- C8: if two independently registered tasks each return a fault from their
`stop()`, the failure the orchestrator raises on exit is a `TBFailure`
containing the cleanup aggregate, which contains both faults as distinct
entries, each annotated `Raised in task [<id>]`. -/
theorem claim_C8_teardown_aggregation (tasks : List (String × Option PyExc))
    (a b : String) (fA fB : PyExc) (hnd : (tasks.map Prod.fst).Nodup)
    (ha : (a, some fA) ∈ tasks) (hb : (b, some fB) ∈ tasks) (hab : a ≠ b) :
    ∃ msg excs,
      aexitFailure none tasks =
        some (PyExc.group ExcClass.tbFailure "Test failed"
          [PyExc.group ExcClass.tbCleanup msg excs []] []) ∧
      addNote fA (taskNote a) ∈ excs ∧ addNote fB (taskNote b) ∈ excs ∧
      addNote fA (taskNote a) ≠ addNote fB (taskNote b) := by
  obtain ⟨msg, excs, hst, hall⟩ := stopTasks_spec tasks hnd a fA ha
  refine ⟨msg, excs, ?_, hall a fA ha, hall b fB hb,
    addNote_ne_of_note_ne (fun hn => hab (taskNote_inj hn))⟩
  unfold aexitFailure
  rw [hst]
  simp

/-- C8 witness: two concrete tasks `A` and `B` whose stops each raised. -/
theorem claim_C8_witness :
    ∃ msg excs,
      aexitFailure none [("A", some (PyExc.plain "AssertionError" "x" [])),
          ("B", some (PyExc.plain "AssertionError" "y" []))] =
        some (PyExc.group ExcClass.tbFailure "Test failed"
          [PyExc.group ExcClass.tbCleanup msg excs []] []) ∧
      addNote (PyExc.plain "AssertionError" "x" []) (taskNote "A") ∈ excs ∧
      addNote (PyExc.plain "AssertionError" "y" []) (taskNote "B") ∈ excs ∧
      addNote (PyExc.plain "AssertionError" "x" []) (taskNote "A") ≠
        addNote (PyExc.plain "AssertionError" "y" []) (taskNote "B") :=
  claim_C8_teardown_aggregation _ "A" "B" _ _ (by decide) (by simp) (by simp) (by decide)

/-! ## Codec: well-formedness inversion and induction -/

/-- Induction over schemas descending into record members. -/
theorem Schema.recMem {motive : Schema → Prop}
    (hleaf : ∀ w, motive (Schema.leaf w))
    (hrec : ∀ sfs, (∀ p ∈ sfs, motive p.2) → motive (Schema.record sfs)) :
    ∀ s, motive s
  | .leaf w => hleaf w
  | .record sfs => hrec sfs (fun p hp => Schema.recMem hleaf hrec p.2)
termination_by s => sizeOf s
decreasing_by
  have h1 := List.sizeOf_lt_of_mem hp
  obtain ⟨x, y⟩ := p
  simp only [Prod.mk.sizeOf_spec] at h1
  simp only [Schema.record.sizeOf_spec]
  omega

/-- Leaf well-formedness unfolded. -/
theorem wf_leaf_iff {w : Nat} {bs : List Bool} :
    wf (.leaf w) (.leaf bs) = true ↔ (bs.length = w ∧ w ≠ 0) := by
  simp [wf]

/-- Record well-formedness unfolded. -/
theorem wf_record_elim {sfs : List (String × Schema)} {vfs : List (String × Value)}
    (h : wf (.record sfs) (.record vfs) = true) :
    sfs ≠ [] ∧ namesNodup sfs = true ∧ wfFields sfs vfs = true := by
  simp only [wf, Bool.and_eq_true, Bool.not_eq_true'] at h
  exact ⟨fun he => by simp [he] at h, h.1.2, h.2⟩

/-- A well-formed field-value list for the empty field list is empty. -/
theorem wfFields_nil_right {vfs : List (String × Value)}
    (h : wfFields [] vfs = true) : vfs = [] := by
  cases vfs with
  | nil => rfl
  | cons q qs => simp [wfFields] at h

/-- Inversion for a well-formed field-value list of a non-empty field list. -/
theorem wfFields_cons_elim {n : String} {s : Schema} {sfs : List (String × Schema)}
    {vfs : List (String × Value)} (h : wfFields ((n, s) :: sfs) vfs = true) :
    ∃ v vrest, vfs = (n, v) :: vrest ∧ wf s v = true ∧ wfFields sfs vrest = true := by
  cases vfs with
  | nil => simp [wfFields] at h
  | cons q qs =>
      obtain ⟨m, v⟩ := q
      simp only [wfFields, Bool.and_eq_true, beq_iff_eq] at h
      obtain ⟨⟨h1, h2⟩, h3⟩ := h
      subst h1
      exact ⟨v, qs, rfl, h2, h3⟩

/-! ## Codec: widths -/

/-- Field-list version of the width correspondence, parameterized by the
member induction hypothesis. -/
theorem intoBitsFields_length (sfs : List (String × Schema)) (vfs : List (String × Value))
    (hwf : wfFields sfs vfs = true)
    (IH : ∀ p ∈ sfs, ∀ w, wf p.2 w = true → (intoBits w).length = p.2.bits) :
    (intoBitsFields vfs).length = bitsFields sfs := by
  induction sfs generalizing vfs with
  | nil => rw [wfFields_nil_right hwf]; rfl
  | cons hd tl ih =>
      obtain ⟨n, s⟩ := hd
      obtain ⟨v, vrest, rfl, hv, hrest⟩ := wfFields_cons_elim hwf
      simp only [intoBitsFields, bitsFields, List.length_append]
      rw [IH (n, s) (by simp) v hv,
        ih vrest hrest (fun p hp w hw => IH p (List.mem_cons_of_mem _ hp) w hw)]

/-- The flat encoding of a well-formed value has exactly the schema's
declared total width. -/
theorem intoBits_length : ∀ (s : Schema) (v : Value), wf s v = true →
    (intoBits v).length = s.bits := by
  intro s
  induction s using Schema.recMem with
  | hleaf w =>
      intro v hv
      cases v with
      | leaf bs => exact ((wf_leaf_iff.mp hv).1 : _)
      | record vfs => simp [wf] at hv
  | hrec sfs ih =>
      intro v hv
      cases v with
      | leaf bs => simp [wf] at hv
      | record vfs =>
          obtain ⟨-, -, hwf⟩ := wf_record_elim hv
          simpa only [intoBits, Schema.bits] using
            intoBitsFields_length sfs vfs hwf (fun p hp w hw => ih p hp w hw)

/-- A schema admitting a well-formed value has positive total width. -/
theorem bits_pos : ∀ (s : Schema) (v : Value), wf s v = true → 1 ≤ s.bits := by
  intro s
  induction s using Schema.recMem with
  | hleaf w =>
      intro v hv
      cases v with
      | leaf bs =>
          have := (wf_leaf_iff.mp hv).2
          simp only [Schema.bits]
          omega
      | record vfs => simp [wf] at hv
  | hrec sfs ih =>
      intro v hv
      cases v with
      | leaf bs => simp [wf] at hv
      | record vfs =>
          obtain ⟨hne, -, hwf⟩ := wf_record_elim hv
          cases sfs with
          | nil => exact absurd rfl hne
          | cons hd tl =>
              obtain ⟨n, s0⟩ := hd
              obtain ⟨v0, vrest, rfl, hv0, -⟩ := wfFields_cons_elim hwf
              have h0 := ih (n, s0) (by simp) v0 hv0
              simp only [Schema.bits, bitsFields]
              simp only [Schema.bits] at h0
              omega

/-! ## Codec: slicing and the round trip -/

/-- Slicing a concatenation at the exact position of its middle block
recovers that block. -/
theorem laSlice_append (pre mid suf : List Bool) (hm : 1 ≤ mid.length) :
    laSlice (pre ++ mid ++ suf) (suf.length + mid.length - 1) suf.length = mid := by
  unfold laSlice
  have hlen : (pre ++ mid ++ suf).length = pre.length + mid.length + suf.length := by
    rw [List.length_append, List.length_append]
  have h2 : (pre ++ mid ++ suf).length - 1 - (suf.length + mid.length - 1) = pre.length := by
    rw [hlen]; omega
  have h3 : suf.length + mid.length - 1 - suf.length + 1 = mid.length := by omega
  rw [h2, h3, List.append_assoc, List.drop_left, List.take_left]

/-- Decoding the concatenated field encodings (with an arbitrary more
significant prefix in place) recovers the fields: the reversed-offset loop
of `from_logicarray` slices exactly each field's own bits. -/
theorem fromBitsFields_spec (sfs : List (String × Schema)) (vfs : List (String × Value))
    (hwf : wfFields sfs vfs = true)
    (IH : ∀ p ∈ sfs, ∀ w, wf p.2 w = true → fromBits p.2 (intoBits w) = w)
    (pre : List Bool) :
    fromBitsFields sfs (pre ++ intoBitsFields vfs) = (bitsFields sfs, vfs) := by
  induction sfs generalizing vfs pre with
  | nil => rw [wfFields_nil_right hwf]; rfl
  | cons hd tl ih =>
      obtain ⟨n, s⟩ := hd
      obtain ⟨v, vrest, rfl, hv, hrest⟩ := wfFields_cons_elim hwf
      have hw : (intoBits v).length = s.bits := intoBits_length s v hv
      have hsuf : (intoBitsFields vrest).length = bitsFields tl :=
        intoBitsFields_length tl vrest hrest
          (fun p hp w hw2 => intoBits_length p.2 w hw2)
      have hrec := ih vrest hrest
        (fun p hp w hw2 => IH p (List.mem_cons_of_mem _ hp) w hw2) (pre ++ intoBits v)
      have hsl := laSlice_append pre (intoBits v) (intoBitsFields vrest)
        (by rw [hw]; exact bits_pos s v hv)
      rw [hw, hsuf] at hsl
      simp only [intoBitsFields, fromBitsFields]
      rw [← List.append_assoc, hrec]
      simp only []
      rw [hsl, IH (n, s) (by simp) v hv]
      simp only [bitsFields, Prod.mk.injEq, and_true]
      omega

/-- The codec round trip on the flat bit-vector representation. -/
theorem fromBits_intoBits : ∀ (s : Schema) (v : Value), wf s v = true →
    fromBits s (intoBits v) = v := by
  intro s
  induction s using Schema.recMem with
  | hleaf w =>
      intro v hv
      cases v with
      | leaf bs => rfl
      | record vfs => simp [wf] at hv
  | hrec sfs ih =>
      intro v hv
      cases v with
      | leaf bs => simp [wf] at hv
      | record vfs =>
          obtain ⟨-, -, hwf⟩ := wf_record_elim hv
          have h := fromBitsFields_spec sfs vfs hwf (fun p hp w hw => ih p hp w hw) []
          rw [List.nil_append] at h
          simp only [fromBits, intoBits, h]

/-! ## Codec: the named-signal tree representation -/

/-- The signal tree driven by `write_to_signal` carries, leaf-concatenated,
exactly the flat encoding (field-list version, parameterized by the member
induction hypothesis). -/
theorem treeBitsFields_write (sfs : List (String × Schema)) (vfs : List (String × Value))
    (hwf : wfFields sfs vfs = true)
    (IH : ∀ p ∈ sfs, ∀ w, wf p.2 w = true → treeBits (writeToSignal w) = intoBits w) :
    treeBitsFields (writeFields vfs) = intoBitsFields vfs := by
  induction sfs generalizing vfs with
  | nil => rw [wfFields_nil_right hwf]; rfl
  | cons hd tl ih =>
      obtain ⟨n, s⟩ := hd
      obtain ⟨v, vrest, rfl, hv, hrest⟩ := wfFields_cons_elim hwf
      simp only [writeFields, treeBitsFields, intoBitsFields]
      rw [IH (n, s) (by simp) v hv,
        ih vrest hrest (fun p hp w hw => IH p (List.mem_cons_of_mem _ hp) w hw)]

/-- The signal-tree and flat-vector representations agree bit-for-bit. -/
theorem treeBits_write : ∀ (s : Schema) (v : Value), wf s v = true →
    treeBits (writeToSignal v) = intoBits v := by
  intro s
  induction s using Schema.recMem with
  | hleaf w =>
      intro v hv
      cases v with
      | leaf bs => rfl
      | record vfs => simp [wf] at hv
  | hrec sfs ih =>
      intro v hv
      cases v with
      | leaf bs => simp [wf] at hv
      | record vfs =>
          obtain ⟨-, -, hwf⟩ := wf_record_elim hv
          simpa only [writeToSignal, treeBits, intoBits] using
            treeBitsFields_write sfs vfs hwf (fun p hp w hw => ih p hp w hw)

/-- Looking up a name not bound by a prefix of children skips that prefix. -/
theorem childNamed_append_fresh (cs l : List (String × SignalTree)) (n : String)
    (h : ∀ q ∈ cs, q.1 ≠ n) : childNamed (cs ++ l) n = childNamed l n := by
  induction cs with
  | nil => rfl
  | cons hd tl ih =>
      obtain ⟨m, t⟩ := hd
      simp only [List.cons_append, childNamed, if_neg (h (m, t) (by simp))]
      exact ih (fun q hq => h q (List.mem_cons_of_mem _ hq))

/-- Reading back the fields just written: name-directed lookup finds each
field (distinct names let it skip the already-read prefix). -/
theorem fromSignalFields_write (sfs : List (String × Schema)) (vfs : List (String × Value))
    (hwf : wfFields sfs vfs = true) (hnd : namesNodup sfs = true)
    (IH : ∀ p ∈ sfs, ∀ w, wf p.2 w = true → fromSignal p.2 (writeToSignal w) = some w)
    (csPre : List (String × SignalTree))
    (hfresh : ∀ p ∈ sfs, ∀ q ∈ csPre, q.1 ≠ p.1) :
    fromSignalFields sfs (csPre ++ writeFields vfs) = some vfs := by
  induction sfs generalizing vfs csPre with
  | nil => rw [wfFields_nil_right hwf]; rfl
  | cons hd tl ih =>
      obtain ⟨n, s⟩ := hd
      obtain ⟨v, vrest, rfl, hv, hrest⟩ := wfFields_cons_elim hwf
      simp only [namesNodup, Bool.and_eq_true, List.all_eq_true, bne_iff_ne] at hnd
      have hchild : childNamed (csPre ++ (n, writeToSignal v) :: writeFields vrest) n
          = some (writeToSignal v) := by
        rw [childNamed_append_fresh csPre _ n (fun q hq => hfresh (n, s) (by simp) q hq)]
        simp [childNamed]
      have hIHv : fromSignal s (writeToSignal v) = some v := IH (n, s) (by simp) v hv
      have hshift : csPre ++ (n, writeToSignal v) :: writeFields vrest =
          (csPre ++ [(n, writeToSignal v)]) ++ writeFields vrest := by simp
      have hrest2 : fromSignalFields tl (csPre ++ (n, writeToSignal v) :: writeFields vrest)
          = some vrest := by
        rw [hshift]
        exact ih vrest hrest hnd.2 (fun p hp w hw => IH p (List.mem_cons_of_mem _ hp) w hw)
          (csPre ++ [(n, writeToSignal v)]) (by
            intro p hp q hq
            rcases List.mem_append.mp hq with hq1 | hq2
            · exact hfresh p (List.mem_cons_of_mem _ hp) q hq1
            · rcases List.mem_singleton.mp hq2 with rfl
              exact fun hcontra => (hnd.1 p hp) hcontra.symm)
      simp only [writeFields, fromSignalFields, hchild, hIHv, hrest2]

/-- The codec round trip on the named-signal-tree representation. -/
theorem fromSignal_write : ∀ (s : Schema) (v : Value), wf s v = true →
    fromSignal s (writeToSignal v) = some v := by
  intro s
  induction s using Schema.recMem with
  | hleaf w =>
      intro v hv
      cases v with
      | leaf bs => rfl
      | record vfs => simp [wf] at hv
  | hrec sfs ih =>
      intro v hv
      cases v with
      | leaf bs => simp [wf] at hv
      | record vfs =>
          obtain ⟨-, hnd, hwf⟩ := wf_record_elim hv
          have h := fromSignalFields_write sfs vfs hwf hnd
            (fun p hp w hw => ih p hp w hw) [] (by intro p _ q hq; cases hq)
          rw [List.nil_append] at h
          simp only [writeToSignal, fromSignal, h, Option.map_some']

/-- C1: codec round trip — for every schema and every well-formed value,
decoding the flat encoding yields the original value
(`from_logicarray(into_logicarray(v)) == v`), reading back the signal tree
written by `write_to_signal` yields the original value, and the two
representations agree bit-for-bit. -/
theorem claim_C1_codec_roundtrip (s : Schema) (v : Value) (h : wf s v = true) :
    fromBits s (intoBits v) = v ∧
    fromSignal s (writeToSignal v) = some v ∧
    treeBits (writeToSignal v) = intoBits v :=
  ⟨fromBits_intoBits s v h, fromSignal_write s v h, treeBits_write s v h⟩

/-- C1 witness: the `Message`-like example value round trips. -/
theorem claim_C1_witness :
    wf msgSchema msgValue = true ∧
    (fromBits msgSchema (intoBits msgValue) = msgValue ∧
     fromSignal msgSchema (writeToSignal msgValue) = some msgValue ∧
     treeBits (writeToSignal msgValue) = intoBits msgValue) :=
  ⟨rfl, claim_C1_codec_roundtrip msgSchema msgValue rfl⟩

/-! ## Bit significance of the concatenation order (C4) -/

/-- Concatenation places the left part at the high bit positions: the value
of `a ++ b` is `a`'s value shifted left by `b`'s width plus `b`'s value. -/
theorem bitsToNat_append (a b : List Bool) :
    bitsToNat (a ++ b) = bitsToNat a * 2 ^ b.length + bitsToNat b := by
  have key : ∀ (l : List Bool) (acc : Nat),
      l.foldl (fun x y => 2 * x + (if y then 1 else 0)) acc =
        acc * 2 ^ l.length + l.foldl (fun x y => 2 * x + (if y then 1 else 0)) 0 := by
    intro l
    induction l with
    | nil => intro acc; simp
    | cons x xs ih =>
        intro acc
        simp only [List.foldl_cons, List.length_cons]
        rw [ih (2 * acc + (if x then 1 else 0)), ih (2 * 0 + (if x then 1 else 0))]
        ring
  unfold bitsToNat
  rw [List.foldl_append, key b]

/-- C4: the flat encoding concatenates the fields' bit vectors in declared
order with the first-declared field at the highest bit positions (its value
is shifted left past all later fields), it is a total function of the value,
and its width is the recursive width sum `bits()`. -/
theorem claim_C4_encoding_order (s : Schema) (v : Value) (h : wf s v = true) :
    (intoBits v).length = s.bits ∧
    (∀ n v0 rest, v = .record ((n, v0) :: rest) →
      intoBits v = intoBits v0 ++ intoBitsFields rest ∧
      bitsToNat (intoBits v) =
        bitsToNat (intoBits v0) * 2 ^ (intoBitsFields rest).length +
          bitsToNat (intoBitsFields rest)) := by
  refine ⟨intoBits_length s v h, ?_⟩
  rintro n v0 rest rfl
  exact ⟨rfl, bitsToNat_append _ _⟩

/-- C4 witness: widths and bit placement on the `Message`-like example. -/
theorem claim_C4_witness :
    wf msgSchema msgValue = true ∧
    ((intoBits msgValue).length = msgSchema.bits ∧
     (∀ n v0 rest, msgValue = .record ((n, v0) :: rest) →
       intoBits msgValue = intoBits v0 ++ intoBitsFields rest ∧
       bitsToNat (intoBits msgValue) =
         bitsToNat (intoBits v0) * 2 ^ (intoBitsFields rest).length +
           bitsToNat (intoBitsFields rest))) :=
  ⟨rfl, claim_C4_encoding_order msgSchema msgValue rfl⟩

/-! ## Packed array element addressing (C3) -/

/-- The packed vector of `n` equal-width elements has length `n * width`. -/
theorem flatten_map_intoBits_length (l : List Value) (eb : Nat)
    (h : ∀ v ∈ l, (intoBits v).length = eb) :
    ((l.map intoBits).flatten).length = l.length * eb := by
  induction l with
  | nil => simp
  | cons v rest ih =>
      simp only [List.map_cons, List.flatten_cons, List.length_append, List.length_cons,
        h v (by simp), ih (fun w hw => h w (List.mem_cons_of_mem _ hw))]
      ring

/-- A big-endian slice starting exactly at the end of a prefix recovers the
block that follows the prefix. -/
theorem bvSlice_append (pre mid suf : List Bool) (hm : 1 ≤ mid.length) :
    bvSlice (pre ++ mid ++ suf) pre.length (pre.length + mid.length - 1) = mid := by
  unfold bvSlice
  have h1 : pre.length + mid.length - 1 - pre.length + 1 = mid.length := by omega
  rw [h1, List.append_assoc, List.drop_left, List.take_left]

/-- C3: on a packed concatenated vector holding `vs.length` well-formed
elements (first element most significant), decoding element `i` reads the
character range starting `element_bits * (array_length - i - 1)` places
below the MSB of the big-endian `signal.value`, which is the significance
range whose low bit is `element_bits * i` — element `0` occupies the LEAST
significant position — and therefore recovers the element stored at the
mirrored position `array_length - 1 - i`. -/
theorem claim_C3_array_addressing (s : Schema) (vs : List Value) (i : Nat)
    (hwf : ∀ v ∈ vs, wf s v = true) (hi : i < vs.length) :
    fromArraySignalSingle s ((vs.map intoBits).flatten) i =
      fromBits s (laSlice ((vs.map intoBits).flatten)
        (s.bits * i + s.bits - 1) (s.bits * i)) ∧
    vs.get? (vs.length - 1 - i) =
      some (fromArraySignalSingle s ((vs.map intoBits).flatten) i) := by
  have hj : vs.length - 1 - i < vs.length := by omega
  have hv0 : vs.get ⟨vs.length - 1 - i, hj⟩ ∈ vs := List.get_mem vs _ hj
  have heb : 1 ≤ s.bits := bits_pos s _ (hwf _ hv0)
  have hlens : ∀ v ∈ vs, (intoBits v).length = s.bits :=
    fun v hv => intoBits_length s v (hwf v hv)
  have hlen : ((vs.map intoBits).flatten).length = vs.length * s.bits :=
    flatten_map_intoBits_length vs s.bits hlens
  have hal : ((vs.map intoBits).flatten).length / s.bits = vs.length := by
    rw [hlen]
    exact Nat.mul_div_cancel _ (by omega)
  have hsplit : vs = vs.take (vs.length - 1 - i) ++
      vs.get ⟨vs.length - 1 - i, hj⟩ :: vs.drop (vs.length - 1 - i + 1) := by
    conv_lhs => rw [← List.take_append_drop (vs.length - 1 - i) vs]
    rw [List.drop_eq_get_cons hj]
  have hflat : (vs.map intoBits).flatten =
      ((vs.take (vs.length - 1 - i)).map intoBits).flatten ++
        intoBits (vs.get ⟨vs.length - 1 - i, hj⟩) ++
        ((vs.drop (vs.length - 1 - i + 1)).map intoBits).flatten := by
    conv_lhs => rw [hsplit]
    rw [List.map_append, List.flatten_append, List.map_cons, List.flatten_cons,
      ← List.append_assoc]
  have hpre : (((vs.take (vs.length - 1 - i)).map intoBits).flatten).length =
      (vs.length - 1 - i) * s.bits := by
    rw [flatten_map_intoBits_length _ _ (fun v hv => hlens v (List.mem_of_mem_take hv))]
    rw [List.length_take, Nat.min_eq_left (Nat.le_of_lt hj)]
  have hsuf : (((vs.drop (vs.length - 1 - i + 1)).map intoBits).flatten).length =
      i * s.bits := by
    rw [flatten_map_intoBits_length _ _ (fun v hv => hlens v (List.mem_of_mem_drop hv))]
    rw [List.length_drop]
    have he : vs.length - (vs.length - 1 - i + 1) = i := by omega
    rw [he]
  have hmid : (intoBits (vs.get ⟨vs.length - 1 - i, hj⟩)).length = s.bits := hlens _ hv0
  have hbv := bvSlice_append (((vs.take (vs.length - 1 - i)).map intoBits).flatten)
    (intoBits (vs.get ⟨vs.length - 1 - i, hj⟩))
    (((vs.drop (vs.length - 1 - i + 1)).map intoBits).flatten)
    (by rw [hmid]; exact heb)
  rw [hmid, hpre] at hbv
  rw [← hflat] at hbv
  have hsl := laSlice_append (((vs.take (vs.length - 1 - i)).map intoBits).flatten)
    (intoBits (vs.get ⟨vs.length - 1 - i, hj⟩))
    (((vs.drop (vs.length - 1 - i + 1)).map intoBits).flatten)
    (by rw [hmid]; exact heb)
  rw [hmid, hsuf] at hsl
  rw [← hflat] at hsl
  have ha1 : s.bits * (vs.length - i - 1) = (vs.length - 1 - i) * s.bits := by
    rw [Nat.mul_comm]
    have he : vs.length - i - 1 = vs.length - 1 - i := by omega
    rw [he]
  have ha2 : i * s.bits + s.bits - 1 = s.bits * i + s.bits - 1 := by
    rw [Nat.mul_comm]
  have ha3 : i * s.bits = s.bits * i := Nat.mul_comm i s.bits
  rw [ha2, ha3] at hsl
  constructor
  · simp only [fromArraySignalSingle]
    rw [hal, ha1, hbv, hsl]
  · rw [List.get?_eq_get hj]
    simp only [fromArraySignalSingle]
    rw [hal, ha1, hbv, fromBits_intoBits s _ (hwf _ hv0)]

/-- C3 counterexample: in the claim's own instance — an 8-bit element schema
packed 4-wide into one 32-bit vector holding four distinct elements —
decoding element index 0 does NOT read bits [31:24]: its encoding is the
[7:0] slice of the packed vector and differs from the [31:24] slice. -/
theorem claim_C3_counterexample :
    intoBits (fromArraySignalSingle elem8Schema ((elemVals.map intoBits).flatten) 0) =
      laSlice ((elemVals.map intoBits).flatten) 7 0 ∧
    (intoBits (fromArraySignalSingle elem8Schema ((elemVals.map intoBits).flatten) 0)
        == laSlice ((elemVals.map intoBits).flatten) 31 24) = false :=
  ⟨by decide, by decide⟩

/-- C3 witness: for the 8-bit element schema packed 4-wide into one 32-bit
vector, decoding element index 0 reads the least significant byte (low
significance bit `8 * 0 = 0`, bits `[7:0]`) and recovers the element stored
at the mirrored position `4 - 1 - 0 = 3` of the packing. -/
theorem claim_C3_witness :
    (∀ v ∈ elemVals, wf elem8Schema v = true) ∧
    (fromArraySignalSingle elem8Schema ((elemVals.map intoBits).flatten) 0 =
        fromBits elem8Schema (laSlice ((elemVals.map intoBits).flatten)
          (elem8Schema.bits * 0 + elem8Schema.bits - 1) (elem8Schema.bits * 0)) ∧
      elemVals.get? (elemVals.length - 1 - 0) =
        some (fromArraySignalSingle elem8Schema ((elemVals.map intoBits).flatten) 0)) :=
  ⟨by decide, claim_C3_array_addressing elem8Schema elemVals 0 (by decide) (by decide)⟩

/-! ## from_flat error behaviour (C2) -/

/-- Appending a fresh key does not change other lookups. -/
theorem dsGet_append_ne (kw : List (String × KW)) (k : String) (v : KW) (f : String)
    (h : f ≠ k) : dsGet (kw ++ [(k, v)]) f = dsGet kw f := by
  induction kw with
  | nil => simp only [List.nil_append, dsGet, if_neg (fun he : k = f => h he.symm)]
  | cons hd tl ih =>
      obtain ⟨m, w⟩ := hd
      by_cases hm : m = f
      · simp [dsGet, hm]
      · simp only [List.cons_append, dsGet, if_neg hm, List.append_eq, ih]

/-- A successful lookup comes from some stored entry. -/
theorem dsGet_mem (kw : List (String × KW)) (k : String) (w : KW)
    (h : dsGet kw k = some w) : ∃ f, (f, w) ∈ kw := by
  induction kw with
  | nil => cases h
  | cons hd tl ih =>
      obtain ⟨m, v⟩ := hd
      by_cases hm : m = k
      · refine ⟨m, ?_⟩
        simp only [dsGet, if_pos hm] at h
        obtain rfl := Option.some.inj h
        simp
      · simp only [dsGet, if_neg hm] at h
        obtain ⟨f, hf⟩ := ih h
        exact ⟨f, List.mem_cons_of_mem _ hf⟩

/-- On an integer field consuming never fails (only nested dicts can). -/
theorem fieldFromFlat_val (fs : Schema) (i : Int) :
    fieldFromFlat fs (KW.val i) = .ok (FValue.leaf i) := by
  cases fs <;> rfl

/-- If every mapping value is a plain integer and some declared field name
is absent, the field loop raises a `KeyError` (naming the first absent
field). -/
theorem fromFlatFields_missing (sfs : List (String × Schema)) (kw : List (String × KW))
    (hvals : ∀ p ∈ kw, ∃ i, p.2 = KW.val i) (n : String)
    (hn : n ∈ sfs.map Prod.fst) (hmiss : dsGet kw n = none) :
    ∃ m, fromFlatFields sfs kw = .error (.keyError m) := by
  induction sfs with
  | nil => cases hn
  | cons hd tl ih =>
      obtain ⟨f, fs⟩ := hd
      cases hget : dsGet kw f with
      | none => exact ⟨f, by simp [fromFlatFields, hget]⟩
      | some w =>
          obtain ⟨g, hgmem⟩ := dsGet_mem kw f w hget
          obtain ⟨i, hi⟩ := hvals (g, w) hgmem
          have hne : n ≠ f := by
            rintro rfl
            rw [hget] at hmiss
            cases hmiss
          have hn2 : n ∈ tl.map Prod.fst := by
            rcases List.mem_map.mp hn with ⟨p, hp, hp2⟩
            rcases List.mem_cons.mp hp with rfl | hp3
            · exact absurd hp2.symm (by simpa using hne)
            · exact hp2 ▸ List.mem_map_of_mem Prod.fst hp3
          obtain ⟨m, hm⟩ := ih hn2
          refine ⟨m, ?_⟩
          have hi2 : w = KW.val i := hi
          rw [hi2] at hget
          simp [fromFlatFields, hget, fieldFromFlat_val, hm]

/-- Appending an entry whose name matches no declared field leaves the
field loop's result unchanged. -/
theorem fromFlatFields_append_unknown (sfs : List (String × Schema))
    (kw : List (String × KW)) (k : String) (v : KW) (hk : ∀ p ∈ sfs, p.1 ≠ k) :
    fromFlatFields sfs (kw ++ [(k, v)]) = fromFlatFields sfs kw := by
  induction sfs with
  | nil => rfl
  | cons hd tl ih =>
      obtain ⟨n, fs⟩ := hd
      have hget := dsGet_append_ne kw k v n (hk (n, fs) (by simp))
      have ihtl := ih (fun p hp => hk p (List.mem_cons_of_mem _ hp))
      simp only [fromFlatFields, hget, ihtl]

/-- Looking up a name absent from the original keys fails. -/
theorem dsGet_map_none (flat : List (Key × Int)) (n : String)
    (h : ∀ e ∈ flat, e.1.2 ≠ n) :
    dsGet (flat.map (fun e => (e.1.2, KW.val e.2))) n = none := by
  induction flat with
  | nil => rfl
  | cons e tl ih =>
      simp only [List.map_cons, dsGet, if_neg (h e (by simp))]
      exact ih (fun e2 he2 => h e2 (List.mem_cons_of_mem _ he2))

/-- A dash-free mapping skips unflattening. -/
theorem any_dash_false (flat : List (Key × Int)) (h : ∀ e ∈ flat, e.1.1 = ([] : List String)) :
    flat.any (fun e => !e.1.1.isEmpty) = false := by
  rw [List.any_eq_false]
  intro e he
  simp [h e he]

/-- C2 (amended): reconstruction from a flat dash-free name-to-integer
mapping fails with a `KeyError` — surfaced immediately to the caller — when
a declared field's name is absent from the mapping; but a mapping entry
whose name matches no declared field is silently ignored (appending it
leaves the result unchanged), not rejected with an UnknownField error. -/
theorem claim_C2_flat_errors :
    (∀ (sfs : List (String × Schema)) (flat : List (Key × Int)) (n : String),
      (∀ e ∈ flat, e.1.1 = ([] : List String)) →
      n ∈ sfs.map Prod.fst →
      (∀ e ∈ flat, e.1.2 ≠ n) →
      ∃ m, pyFromFlat sfs flat = .error (.keyError m)) ∧
    (∀ (sfs : List (String × Schema)) (flat : List (Key × Int)) (k : Key) (v : Int),
      (∀ e ∈ flat, e.1.1 = ([] : List String)) →
      k.1 = ([] : List String) →
      (∀ p ∈ sfs, p.1 ≠ k.2) →
      pyFromFlat sfs (flat ++ [(k, v)]) = pyFromFlat sfs flat) := by
  constructor
  · intro sfs flat n hdash hn hmiss
    obtain ⟨m, hm⟩ := fromFlatFields_missing sfs (flat.map (fun e => (e.1.2, KW.val e.2)))
      (by
        intro p hp
        rcases List.mem_map.mp hp with ⟨e, -, rfl⟩
        exact ⟨e.2, rfl⟩)
      n hn (dsGet_map_none flat n hmiss)
    refine ⟨m, ?_⟩
    unfold pyFromFlat
    rw [any_dash_false flat hdash]
    simp [hm, Except.map]
  · intro sfs flat k v hdash hk hnames
    unfold pyFromFlat
    have hall : ∀ e ∈ flat ++ [(k, v)], e.1.1 = ([] : List String) := by
      intro e he
      rcases List.mem_append.mp he with h1 | h2
      · exact hdash e h1
      · rcases List.mem_singleton.mp h2 with rfl
        exact hk
    rw [any_dash_false flat hdash, any_dash_false _ hall]
    simp only [Bool.false_eq_true, if_false, List.map_append, List.map_cons, List.map_nil]
    rw [fromFlatFields_append_unknown sfs _ k.2 (KW.val v) hnames]

/-- C2 counterexample: a mapping containing the unrecognized name `junk`
does not fail with an UnknownField error — `from_flat` succeeds and silently
drops the entry. -/
theorem claim_C2_counterexample :
    pyFromFlat [("a", Schema.leaf 4)]
        [((([] : List String), "a"), 1), ((([] : List String), "junk"), 2)]
      = .ok (FValue.record [("a", FValue.leaf 1)]) := rfl

/-- C2 witness: a missing field raises `KeyError`; an unknown entry is
ignored. -/
theorem claim_C2_witness :
    (∃ m, pyFromFlat [("a", Schema.leaf 4)] [] = .error (.keyError m)) ∧
    pyFromFlat [("a", Schema.leaf 4)]
        ([((([] : List String), "a"), 1)] ++ [((([] : List String), "junk"), 2)]) =
      pyFromFlat [("a", Schema.leaf 4)] [((([] : List String), "a"), 1)] :=
  ⟨claim_C2_flat_errors.1 [("a", Schema.leaf 4)] [] "a" (by simp) (by simp) (by simp),
   claim_C2_flat_errors.2 [("a", Schema.leaf 4)] [((([] : List String), "a"), 1)]
     (([] : List String), "junk") 2 (by simp) rfl (by simp)⟩

/-! ## Quick-constructor correctness (C5): dictionary and key lemmas -/

/-- Setting a key makes it readable. -/
theorem dsGet_dsSet_self (d : List (String × KW)) (k : String) (v : KW) :
    dsGet (dsSet d k v) k = some v := by
  induction d with
  | nil => simp [dsSet, dsGet]
  | cons hd tl ih =>
      obtain ⟨m, w⟩ := hd
      by_cases hm : m = k
      · simp [dsSet, dsGet, hm]
      · simp [dsSet, dsGet, hm, ih]

/-- Setting a key leaves other lookups unchanged. -/
theorem dsGet_dsSet_ne (d : List (String × KW)) (k : String) (v : KW) (c : String)
    (h : k ≠ c) : dsGet (dsSet d k v) c = dsGet d c := by
  induction d with
  | nil =>
      simp only [dsSet, dsGet]
      rw [if_neg (fun he : k = c => h he)]
  | cons hd tl ih =>
      obtain ⟨m, w⟩ := hd
      simp only [dsSet]
      by_cases hm : m = k
      · rw [if_pos hm]
        simp only [dsGet]
        rw [if_neg (fun hc2 : m = c => h (hm ▸ hc2)),
          if_neg (fun hc2 : m = c => h (hm ▸ hc2))]
      · rw [if_neg hm]
        simp only [dsGet]
        by_cases hc : m = c
        · rw [if_pos hc, if_pos hc]
        · rw [if_neg hc, if_neg hc, ih]

/-- Lookup in a concatenation: the left part wins. -/
theorem keyLookup_append (A B : List (Key × Int)) (k : Key) :
    keyLookup (A ++ B) k =
      (match keyLookup A k with
       | some v => some v
       | none => keyLookup B k) := by
  induction A with
  | nil => rfl
  | cons e tl ih =>
      by_cases he : e.1 = k
      · simp [keyLookup, he]
      · simpa [keyLookup, he] using ih

/-- A successful lookup means the name is among the keys. -/
theorem keyLookup_some_mem (A : List (Key × Int)) (k : Key) (v : Int)
    (h : keyLookup A k = some v) : k ∈ keysOf A := by
  induction A with
  | nil => cases h
  | cons e tl ih =>
      by_cases he : e.1 = k
      · rw [← he]; exact List.mem_map_of_mem Prod.fst (by simp)
      · simp only [keyLookup, if_neg he] at h
        exact List.mem_cons_of_mem _ (ih h)

/-- A name among the keys always looks up to some value. -/
theorem keyLookup_of_mem_keys (A : List (Key × Int)) (k : Key) (h : k ∈ keysOf A) :
    ∃ v, keyLookup A k = some v := by
  induction A with
  | nil => cases h
  | cons e tl ih =>
      by_cases he : e.1 = k
      · exact ⟨e.2, by simp [keyLookup, he]⟩
      · rcases List.mem_cons.mp h with h1 | h2
        · exact absurd h1.symm he
        · simpa [keyLookup, he] using ih h2

/-- An absent name looks up to `none`. -/
theorem keyLookup_none_of_not_mem (A : List (Key × Int)) (k : Key) (h : k ∉ keysOf A) :
    keyLookup A k = none := by
  cases hk : keyLookup A k with
  | none => rfl
  | some v => exact absurd (keyLookup_some_mem A k v hk) h

/-- `stripNS` distributes over append. -/
theorem stripNS_append (c : String) (A B : List (Key × Int)) :
    stripNS c (A ++ B) = stripNS c A ++ stripNS c B :=
  List.filterMap_append A B _

/-- A top-level (dash-free) entry is dropped by `stripNS`. -/
theorem stripNS_single_nil (c tk : String) (v : Int) :
    stripNS c [((([] : List String), tk), v)] = [] := rfl

/-- A dashed entry under `c` is kept with `c` stripped. -/
theorem stripNS_single_cons (c : String) (ps : List String) (tk : String) (v : Int) :
    stripNS c [((c :: ps, tk), v)] = [((ps, tk), v)] := by
  simp [stripNS]

/-- A dashed entry under a different component is dropped. -/
theorem stripNS_single_cons_ne (c p : String) (ps : List String) (tk : String) (v : Int)
    (h : p ≠ c) : stripNS c [((p :: ps, tk), v)] = [] := by
  simp [stripNS, h]

/-- Without entries under `c`, stripping `c` leaves nothing. -/
theorem stripNS_eq_nil_of_no_prefix (c : String) (A : List (Key × Int))
    (h : ¬ ∃ e ∈ A, ∃ ps tk, e.1 = (c :: ps, tk)) : stripNS c A = [] := by
  induction A with
  | nil => rfl
  | cons e tl ih =>
      have he : ∀ ps tk, e.1 ≠ ((c :: ps, tk) : Key) := by
        intro ps tk hcon
        exact h ⟨e, by simp, ps, tk, hcon⟩
      have htl := ih (fun ⟨e2, he2, ps, tk, hk⟩ => h ⟨e2, List.mem_cons_of_mem _ he2, ps, tk, hk⟩)
      obtain ⟨⟨parts, tk0⟩, v0⟩ := e
      cases parts with
      | nil => simpa [stripNS] using (by simpa [stripNS] using htl : stripNS c tl = [])
      | cons p ps0 =>
          have hp : p ≠ c := by
            intro hpc
            exact he ps0 tk0 (by rw [hpc])
          simp only [stripNS, List.filterMap_cons] at htl ⊢
          simp [hp, htl]

/-- The keys of a stripped list are the stripped keys. -/
theorem keysOf_stripNS (c : String) (A : List (Key × Int)) :
    keysOf (stripNS c A) = (keysOf A).filterMap (fun k =>
      match k.1 with
      | [] => none
      | q :: qs => if q = c then some ((qs, k.2) : Key) else none) := by
  induction A with
  | nil => rfl
  | cons e tl ih =>
      obtain ⟨⟨parts, tk0⟩, v0⟩ := e
      cases parts with
      | nil => simpa [stripNS, keysOf, List.filterMap_cons] using ih
      | cons p ps0 =>
          by_cases hp : p = c
          · simp only [stripNS, keysOf, List.filterMap_cons, List.map_cons, hp, if_pos rfl] at ih ⊢
            simpa [stripNS, keysOf] using ih
          · simp only [stripNS, keysOf, List.filterMap_cons, List.map_cons, if_neg hp] at ih ⊢
            simpa [stripNS, keysOf] using ih

/-- Membership transfer into the stripped keys. -/
theorem mem_keysOf_stripNS (c : String) (A : List (Key × Int)) (ps : List String) (tk : String)
    (h : ((c :: ps, tk) : Key) ∈ keysOf A) : ((ps, tk) : Key) ∈ keysOf (stripNS c A) := by
  rw [keysOf_stripNS]
  exact List.mem_filterMap.mpr ⟨(c :: ps, tk), h, by simp⟩

/-- Distinct names stay distinct after stripping. -/
theorem nodup_keysOf_stripNS (c : String) (A : List (Key × Int))
    (h : (keysOf A).Nodup) : (keysOf (stripNS c A)).Nodup := by
  rw [keysOf_stripNS]
  refine List.Nodup.filterMap ?_ h
  intro k1 k2 b hb1 hb2
  obtain ⟨p1, tk1⟩ := k1
  obtain ⟨p2, tk2⟩ := k2
  cases p1 with
  | nil => simp at hb1
  | cons q1 qs1 =>
      cases p2 with
      | nil => simp at hb2
      | cons q2 qs2 =>
          simp only [Option.mem_def] at hb1 hb2
          by_cases h1 : q1 = c
          · by_cases h2 : q2 = c
            · rw [if_pos h1] at hb1
              rw [if_pos h2] at hb2
              obtain rfl := Option.some.inj hb1
              obtain hb := Option.some.inj hb2
              obtain ⟨rfl, rfl⟩ := Prod.mk.injEq .. ▸ hb
              rw [h1, h2]
            · rw [if_neg h2] at hb2; cases hb2
          · rw [if_neg h1] at hb1; cases hb1

/-- Prefix-freeness restricts to any sub-collection. -/
theorem prefixFree_subset {ks ks2 : List Key} (h : PrefixFree ks)
    (hsub : ∀ k ∈ ks2, k ∈ ks) : PrefixFree ks2 :=
  fun k1 h1 k2 h2 => h k1 (hsub k1 h1) k2 (hsub k2 h2)

/-- Prefix-freeness survives stripping a namespace component. -/
theorem prefixFree_stripNS (c : String) (A : List (Key × Int))
    (h : PrefixFree (keysOf A)) : PrefixFree (keysOf (stripNS c A)) := by
  intro k1 h1 k2 h2 hpre
  rw [keysOf_stripNS] at h1 h2
  obtain ⟨o1, ho1, hf1⟩ := List.mem_filterMap.mp h1
  obtain ⟨o2, ho2, hf2⟩ := List.mem_filterMap.mp h2
  obtain ⟨p1, tk1⟩ := o1
  obtain ⟨p2, tk2⟩ := o2
  cases p1 with
  | nil => simp at hf1
  | cons q1 qs1 =>
      cases p2 with
      | nil => simp at hf2
      | cons q2 qs2 =>
          simp only [] at hf1 hf2
          by_cases hq1 : q1 = c
          · by_cases hq2 : q2 = c
            · rw [if_pos hq1] at hf1
              rw [if_pos hq2] at hf2
              obtain rfl := Option.some.inj hf1
              obtain rfl := Option.some.inj hf2
              refine h ((q1 :: qs1, tk1) : Key) ho1 ((q2 :: qs2, tk2) : Key) ho2 ?_
              show q1 :: (qs1 ++ [tk1]) <+: q2 :: qs2
              rw [hq1, hq2]
              exact (List.prefix_cons_iff).mpr (Or.inr ⟨qs1 ++ [tk1], rfl, hpre⟩)
            · rw [if_neg hq2] at hf2; cases hf2
          · rw [if_neg hq1] at hf1; cases hf1

/-- The empty assignment is represented by the empty dictionary. -/
theorem trieRepr_nil : TrieRepr [] [] := by
  refine TrieRepr.intro ?_ ?_ ?_
  · intro c v
    constructor
    · intro h; cases h
    · intro h; cases h
  · intro c
    constructor
    · rintro ⟨e, he, -⟩; cases he
    · rintro ⟨D2, hD2⟩; cases hD2
  · intro c D2 h; cases h

/-- Appending an entry with a different name leaves a lookup unchanged. -/
theorem keyLookup_append_single_ne (A : List (Key × Int)) (k0 : Key) (v0 : Int) (k : Key)
    (h : k0 ≠ k) : keyLookup (A ++ [(k0, v0)]) k = keyLookup A k := by
  rw [keyLookup_append]
  cases hA : keyLookup A k with
  | some w => rfl
  | none => simp [keyLookup, h]

/-- Appending a fresh entry makes its name look up to its value. -/
theorem keyLookup_append_single_self (A : List (Key × Int)) (k0 : Key) (v0 : Int)
    (h : keyLookup A k0 = none) : keyLookup (A ++ [(k0, v0)]) k0 = some v0 := by
  rw [keyLookup_append, h]
  simp [keyLookup]

/-- The names of an extended assignment list. -/
theorem keysOf_append_single (A : List (Key × Int)) (k0 : Key) (v0 : Int) :
    keysOf (A ++ [(k0, v0)]) = keysOf A ++ [k0] := by
  simp [keysOf]

/-- One `__unflatten` insertion preserves the trie invariant: inserting a
fresh, prefix-compatible dashed name into a represented dictionary succeeds
and represents the extended assignment list. -/
theorem insertPath_spec : ∀ (parts : List String) (A : List (Key × Int))
    (D : List (String × KW)) (tk : String) (v : Int),
    TrieRepr A D →
    (keysOf (A ++ [((parts, tk), v)])).Nodup →
    PrefixFree (keysOf (A ++ [((parts, tk), v)])) →
    ∃ D2, insertPath D parts tk v = some D2 ∧ TrieRepr (A ++ [((parts, tk), v)]) D2 := by
  intro parts
  induction parts with
  | nil =>
      intro A D tk v hrep hnd hpf
      obtain ⟨hval, hdict, hsub⟩ := hrep
      have hmiss : keyLookup A (([] : List String), tk) = none := by
        apply keyLookup_none_of_not_mem
        intro hmem
        rw [keysOf_append_single] at hnd
        rcases List.nodup_append.mp hnd with ⟨-, -, hdisj⟩
        exact hdisj hmem (List.mem_singleton.mpr rfl)
      refine ⟨dsSet D tk (KW.val v), rfl, TrieRepr.intro ?_ ?_ ?_⟩
      · intro c v2
        by_cases hc : c = tk
        · subst hc
          rw [keyLookup_append_single_self A _ v hmiss, dsGet_dsSet_self]
          constructor
          · intro hh
            obtain rfl := Option.some.inj hh
            rfl
          · intro hh
            have hv := Option.some.inj hh
            injection hv with hv2
            rw [hv2]
        · rw [keyLookup_append_single_ne A _ v _ (by
            intro hk
            exact hc (congrArg Prod.snd hk).symm),
            dsGet_dsSet_ne D tk _ c (fun hh => hc hh.symm)]
          exact hval c v2
      · intro c
        by_cases hc : c = tk
        · subst hc
          constructor
          · rintro ⟨e2, he2, ps, tk2, hk⟩
            exfalso
            rcases List.mem_append.mp he2 with hin | hone
            · refine hpf ((([] : List String), c) : Key) ?_ e2.1 ?_ ?_
              · rw [keysOf_append_single]
                exact List.mem_append.mpr (Or.inr (List.mem_singleton.mpr rfl))
              · rw [keysOf_append_single]
                exact List.mem_append.mpr (Or.inl (List.mem_map_of_mem Prod.fst hin))
              · rw [hk]
                exact List.prefix_cons_iff.mpr (Or.inr ⟨[], rfl, List.nil_prefix⟩)
            · rcases List.mem_singleton.mp hone with rfl
              exact absurd (congrArg Prod.fst hk) (by simp)
          · rintro ⟨D2, hD2⟩
            rw [dsGet_dsSet_self] at hD2
            exact absurd hD2 (by simp)
        · rw [show dsGet (dsSet D tk (KW.val v)) c = dsGet D c from
            dsGet_dsSet_ne D tk _ c (fun hh => hc hh.symm)]
          rw [← hdict c]
          constructor
          · rintro ⟨e2, he2, ps, tk2, hk⟩
            rcases List.mem_append.mp he2 with hin | hone
            · exact ⟨e2, hin, ps, tk2, hk⟩
            · rcases List.mem_singleton.mp hone with rfl
              exact absurd (congrArg Prod.fst hk) (by simp)
          · rintro ⟨e2, he2, ps, tk2, hk⟩
            exact ⟨e2, List.mem_append.mpr (Or.inl he2), ps, tk2, hk⟩
      · intro c D2 hD2
        by_cases hc : c = tk
        · subst hc
          rw [dsGet_dsSet_self] at hD2
          exact absurd hD2 (by simp)
        · rw [dsGet_dsSet_ne D tk _ c (fun hh => hc hh.symm)] at hD2
          have hstrip : stripNS c (A ++ [((([] : List String), tk), v)]) = stripNS c A := by
            rw [stripNS_append, stripNS_single_nil, List.append_nil]
          rw [hstrip]
          exact hsub c D2 hD2
  | cons p ps ih =>
      intro A D tk v hrep hnd hpf
      obtain ⟨hval, hdict, hsub⟩ := hrep
      have hknew : ((p :: ps, tk) : Key) ∈ keysOf (A ++ [((p :: ps, tk), v)]) := by
        rw [keysOf_append_single]
        exact List.mem_append.mpr (Or.inr (List.mem_singleton.mpr rfl))
      have hnoval : keyLookup A (([] : List String), p) = none := by
        apply keyLookup_none_of_not_mem
        intro hmem
        refine hpf ((([] : List String), p) : Key) ?_ ((p :: ps, tk) : Key) hknew ?_
        · rw [keysOf_append_single]
          exact List.mem_append.mpr (Or.inl hmem)
        · exact List.prefix_cons_iff.mpr (Or.inr ⟨[], rfl, List.nil_prefix⟩)
      have hstripnew : stripNS p (A ++ [((p :: ps, tk), v)]) =
          stripNS p A ++ [((ps, tk), v)] := by
        rw [stripNS_append, stripNS_single_cons]
      have hndsub : (keysOf (stripNS p A ++ [((ps, tk), v)])).Nodup := by
        rw [← hstripnew]
        exact nodup_keysOf_stripNS p _ hnd
      have hpfsub : PrefixFree (keysOf (stripNS p A ++ [((ps, tk), v)])) := by
        rw [← hstripnew]
        exact prefixFree_stripNS p _ hpf
      have hne_nilkey : ∀ c : String, ((p :: ps, tk) : Key) ≠ ((([] : List String), c) : Key) := by
        intro c hk
        exact absurd (congrArg Prod.fst hk) (by simp)
      cases hget : dsGet D p with
      | none =>
          have hnopre : ¬ ∃ e ∈ A, ∃ ps2 tk2, e.1 = (p :: ps2, tk2) := by
            intro hcon
            obtain ⟨D2, hD2⟩ := (hdict p).mp hcon
            rw [hget] at hD2
            exact absurd hD2 (by simp)
          have hstripA : stripNS p A = [] := stripNS_eq_nil_of_no_prefix p A hnopre
          rw [hstripA, List.nil_append] at hndsub hpfsub
          have hsubcall := ih [] [] tk v trieRepr_nil
            (by rw [List.nil_append]; exact hndsub)
            (by rw [List.nil_append]; exact hpfsub)
          rw [List.nil_append] at hsubcall
          obtain ⟨D1, hins, hrep1⟩ := hsubcall
          refine ⟨dsSet D p (KW.dict D1), ?_, TrieRepr.intro ?_ ?_ ?_⟩
          · simp only [insertPath, hget, hins, Option.map_some']
          · intro c v2
            by_cases hc : c = p
            · subst hc
              rw [dsGet_dsSet_self, keyLookup_append_single_ne A _ v _ (hne_nilkey c),
                hnoval]
              constructor
              · intro hh
                simp at hh
              · intro hh
                simp at hh
            · rw [dsGet_dsSet_ne D p _ c (fun hh => hc hh.symm),
                keyLookup_append_single_ne A _ v _ (hne_nilkey c)]
              exact hval c v2
          · intro c
            by_cases hc : c = p
            · rw [hc]
              constructor
              · intro hcon2
                exact ⟨D1, by rw [dsGet_dsSet_self]⟩
              · intro hcon2
                exact ⟨((p :: ps, tk), v), List.mem_append.mpr (Or.inr (by simp)), ps, tk, rfl⟩
            · rw [dsGet_dsSet_ne D p _ c (fun hh => hc hh.symm), ← hdict c]
              constructor
              · rintro ⟨e2, he2, ps2, tk2, hk⟩
                rcases List.mem_append.mp he2 with hin | hone
                · exact ⟨e2, hin, ps2, tk2, hk⟩
                · rcases List.mem_singleton.mp hone with rfl
                  have h2 := List.head_eq_of_cons_eq (congrArg Prod.fst hk)
                  exact absurd h2.symm hc
              · rintro ⟨e2, he2, ps2, tk2, hk⟩
                exact ⟨e2, List.mem_append.mpr (Or.inl he2), ps2, tk2, hk⟩
          · intro c D2 hD2
            by_cases hc : c = p
            · subst hc
              rw [dsGet_dsSet_self] at hD2
              have hd12 : KW.dict D1 = KW.dict D2 := Option.some.inj hD2
              obtain rfl : D1 = D2 := by injection hd12
              rw [hstripnew, hstripA, List.nil_append]
              exact hrep1
            · rw [dsGet_dsSet_ne D p _ c (fun hh => hc hh.symm)] at hD2
              have hstrip2 : stripNS c (A ++ [((p :: ps, tk), v)]) = stripNS c A := by
                rw [stripNS_append, stripNS_single_cons_ne c p ps tk v (fun hh => hc hh.symm),
                  List.append_nil]
              rw [hstrip2]
              exact hsub c D2 hD2
      | some w =>
          cases w with
          | val w0 =>
              exfalso
              have hlk : keyLookup A (([] : List String), p) = some w0 := (hval p w0).mpr hget
              rw [hnoval] at hlk
              exact absurd hlk (by simp)
          | dict D1 =>
              have hrepsub := hsub p D1 hget
              obtain ⟨D1b, hins, hrep1⟩ := ih (stripNS p A) D1 tk v hrepsub hndsub hpfsub
              refine ⟨dsSet D p (KW.dict D1b), ?_, TrieRepr.intro ?_ ?_ ?_⟩
              · simp only [insertPath, hget, hins, Option.map_some']
              · intro c v2
                by_cases hc : c = p
                · subst hc
                  rw [dsGet_dsSet_self, keyLookup_append_single_ne A _ v _ (hne_nilkey c)]
                  have hnov2 : keyLookup A (([] : List String), c) = none := by
                    cases hlk : keyLookup A (([] : List String), c) with
                    | none => rfl
                    | some w1 =>
                        have hw1 := (hval c w1).mp hlk
                        rw [hget] at hw1
                        exact absurd hw1 (by simp)
                  rw [hnov2]
                  constructor
                  · intro hh
                    simp at hh
                  · intro hh
                    simp at hh
                · rw [dsGet_dsSet_ne D p _ c (fun hh => hc hh.symm),
                    keyLookup_append_single_ne A _ v _ (hne_nilkey c)]
                  exact hval c v2
              · intro c
                by_cases hc : c = p
                · rw [hc]
                  constructor
                  · intro hcon2
                    exact ⟨D1b, by rw [dsGet_dsSet_self]⟩
                  · intro hcon2
                    exact ⟨((p :: ps, tk), v), List.mem_append.mpr (Or.inr (by simp)),
                      ps, tk, rfl⟩
                · rw [dsGet_dsSet_ne D p _ c (fun hh => hc hh.symm), ← hdict c]
                  constructor
                  · rintro ⟨e2, he2, ps2, tk2, hk⟩
                    rcases List.mem_append.mp he2 with hin | hone
                    · exact ⟨e2, hin, ps2, tk2, hk⟩
                    · rcases List.mem_singleton.mp hone with rfl
                      have h2 := List.head_eq_of_cons_eq (congrArg Prod.fst hk)
                      exact absurd h2.symm hc
                  · rintro ⟨e2, he2, ps2, tk2, hk⟩
                    exact ⟨e2, List.mem_append.mpr (Or.inl he2), ps2, tk2, hk⟩
              · intro c D2 hD2
                by_cases hc : c = p
                · subst hc
                  rw [dsGet_dsSet_self] at hD2
                  have hd12 : KW.dict D1b = KW.dict D2 := Option.some.inj hD2
                  obtain rfl : D1b = D2 := by injection hd12
                  rw [hstripnew]
                  exact hrep1
                · rw [dsGet_dsSet_ne D p _ c (fun hh => hc hh.symm)] at hD2
                  have hstrip2 : stripNS c (A ++ [((p :: ps, tk), v)]) = stripNS c A := by
                    rw [stripNS_append,
                      stripNS_single_cons_ne c p ps tk v (fun hh => hc hh.symm),
                      List.append_nil]
                  rw [hstrip2]
                  exact hsub c D2 hD2

/-- Names distribute over append. -/
theorem keysOf_append (A B : List (Key × Int)) : keysOf (A ++ B) = keysOf A ++ keysOf B := by
  simp [keysOf]

/-- The `__unflatten` fold, started from a dictionary representing the
already-processed entries, succeeds on the remaining fresh prefix-compatible
entries and represents the whole list. -/
theorem unflattenFrom_spec : ∀ (rest A : List (Key × Int)) (D : List (String × KW)),
    TrieRepr A D → (keysOf (A ++ rest)).Nodup → PrefixFree (keysOf (A ++ rest)) →
    ∃ D2, unflattenFrom D rest = some D2 ∧ TrieRepr (A ++ rest) D2 := by
  intro rest
  induction rest with
  | nil =>
      intro A D hrep hnd hpf
      exact ⟨D, rfl, by simpa using hrep⟩
  | cons e tl ih =>
      intro A D hrep hnd hpf
      obtain ⟨⟨parts, tk⟩, v⟩ := e
      have hassoc : A ++ ((parts, tk), v) :: tl = (A ++ [((parts, tk), v)]) ++ tl := by
        simp
      rw [hassoc] at hnd hpf ⊢
      have hnd1 : (keysOf (A ++ [((parts, tk), v)])).Nodup := by
        rw [keysOf_append] at hnd
        exact (List.nodup_append.mp hnd).1
      have hpf1 : PrefixFree (keysOf (A ++ [((parts, tk), v)])) := by
        refine prefixFree_subset hpf ?_
        intro k hk
        rw [keysOf_append]
        exact List.mem_append.mpr (Or.inl hk)
      obtain ⟨D1, hins, hrep1⟩ := insertPath_spec parts A D tk v hrep hnd1 hpf1
      obtain ⟨D2, hrun, hrep2⟩ := ih (A ++ [((parts, tk), v)]) D1 hrep1 hnd hpf
      refine ⟨D2, ?_, hrep2⟩
      simp only [unflattenFrom, hins, hrun]

/-- `__unflatten` succeeds on distinct, prefix-free dashed names and builds
a dictionary representing them. -/
theorem unflatten_spec (flat : List (Key × Int)) (hnd : (keysOf flat).Nodup)
    (hpf : PrefixFree (keysOf flat)) :
    ∃ D, unflatten flat = some D ∧ TrieRepr flat D := by
  have h := unflattenFrom_spec flat [] [] trieRepr_nil (by simpa) (by simpa)
  simpa [unflatten] using h

/-- A dash-free mapping is its own trie: `from_flat` uses the kwargs
dictionary directly, and it represents the assignment list. -/
theorem trieRepr_flat (A : List (Key × Int)) (h : ∀ e ∈ A, e.1.1 = ([] : List String)) :
    TrieRepr A (A.map (fun e => (e.1.2, KW.val e.2))) := by
  induction A with
  | nil => exact trieRepr_nil
  | cons e tl ih =>
      obtain ⟨⟨parts, tk⟩, v⟩ := e
      obtain rfl : parts = [] := h ((parts, tk), v) (by simp)
      have ihtl := ih (fun e2 he2 => h e2 (List.mem_cons_of_mem _ he2))
      obtain ⟨hval, hdict, hsub⟩ := ihtl
      have hstripe : ∀ c : String,
          stripNS c (((([] : List String), tk), v) :: tl) = stripNS c tl := by
        intro c
        simp [stripNS, List.filterMap_cons]
      refine TrieRepr.intro ?_ ?_ ?_
      · intro c v2
        by_cases hc : tk = c
        · subst hc
          simp only [List.map_cons, keyLookup, dsGet, if_pos rfl, eq_self_iff_true, if_true]
          constructor
          · intro hh
            obtain rfl := Option.some.inj hh
            rfl
          · intro hh
            have hv := Option.some.inj hh
            injection hv with hv2
            rw [hv2]
        · simp only [List.map_cons, keyLookup, dsGet,
            if_neg (fun hk : ((([] : List String), tk) : Key) = (([] : List String), c) =>
              hc (congrArg Prod.snd hk)),
            if_neg hc]
          exact hval c v2
      · intro c
        constructor
        · rintro ⟨e2, he2, ps2, tk2, hk⟩
          exfalso
          rcases List.mem_cons.mp he2 with heq | hin
          · rw [heq] at hk
            exact absurd (congrArg Prod.fst hk) (by simp)
          · have h2 := h e2 (List.mem_cons_of_mem _ hin)
            rw [hk] at h2
            exact absurd h2 (by simp)
        · rintro ⟨D2, hD2⟩
          exfalso
          by_cases hc : tk = c
          · simp only [List.map_cons, dsGet, if_pos hc] at hD2
            exact absurd hD2 (by simp)
          · simp only [List.map_cons, dsGet, if_neg hc] at hD2
            obtain ⟨e2, hin, ps2, tk2, hk⟩ := (hdict c).mpr ⟨D2, hD2⟩
            have h2 := h e2 (List.mem_cons_of_mem _ hin)
            rw [hk] at h2
            exact absurd h2 (by simp)
      · intro c D2 hD2
        by_cases hc : tk = c
        · simp only [List.map_cons, dsGet, if_pos hc] at hD2
          exact absurd hD2 (by simp)
        · simp only [List.map_cons, dsGet, if_neg hc] at hD2
          rw [hstripe c]
          exact hsub c D2 hD2

/-! ## Leaf-path properties of well-formed schemas -/

/-- Schema-only record well-formedness unfolded. -/
theorem swf_record_elim {sfs : List (String × Schema)} (h : swf (.record sfs) = true) :
    sfs ≠ [] ∧ namesNodup sfs = true ∧ swfFields sfs = true := by
  simp only [swf, Bool.and_eq_true, Bool.not_eq_true'] at h
  exact ⟨fun he => by simp [he] at h, h.1.2, h.2⟩

/-- Every field of a well-formed field list is well-formed. -/
theorem swfFields_mem {sfs : List (String × Schema)} (h : swfFields sfs = true) :
    ∀ p ∈ sfs, swf p.2 = true := by
  induction sfs with
  | nil => intro p hp; cases hp
  | cons hd tl ih =>
      obtain ⟨n, s0⟩ := hd
      simp only [swfFields, Bool.and_eq_true] at h
      intro p hp
      rcases List.mem_cons.mp hp with rfl | hp2
      · exact h.1
      · exact ih h.2 p hp2

/-- With distinct field names, a name determines the field. -/
theorem namesNodup_unique {sfs : List (String × Schema)} (h : namesNodup sfs = true) :
    ∀ p1 ∈ sfs, ∀ p2 ∈ sfs, p1.1 = p2.1 → p1 = p2 := by
  induction sfs with
  | nil => intro p1 hp1; cases hp1
  | cons hd tl ih =>
      simp only [namesNodup, Bool.and_eq_true, List.all_eq_true, bne_iff_ne] at h
      intro p1 hp1 p2 hp2 hname
      rcases List.mem_cons.mp hp1 with rfl | h1
      · rcases List.mem_cons.mp hp2 with rfl | h2
        · rfl
        · exact absurd hname.symm (h.1 p2 h2)
      · rcases List.mem_cons.mp hp2 with rfl | h2
        · exact absurd hname (h.1 p1 h1)
        · exact ih h.2 p1 h1 p2 h2 hname
mutual

/-- Dashed leaf names under a prefix are the prefixed bare leaf names
(single-field version). -/
theorem leafPathsField_shift : ∀ (pref : List String) (n : String) (s : Schema),
    leafPathsField pref n s =
      (leafPathsField [] n s).map (fun k => ((pref ++ k.1, k.2) : Key))
  | pref, n, .leaf w => by
      simp [leafPathsField]
  | pref, n, .record sfs => by
      simp only [leafPathsField]
      rw [leafPathsFields_shift (pref ++ [n]) sfs, leafPathsFields_shift ([] ++ [n]) sfs,
        List.map_map]
      apply List.map_congr_left
      intro k hk
      simp [Function.comp, List.append_assoc]
termination_by pref n s => sizeOf s

/-- Dashed leaf names under a prefix are the prefixed bare leaf names. -/
theorem leafPathsFields_shift : ∀ (pref : List String) (sfs : List (String × Schema)),
    leafPathsFields pref sfs =
      (leafPathsFields [] sfs).map (fun k => ((pref ++ k.1, k.2) : Key))
  | pref, [] => by simp [leafPathsFields]
  | pref, (n, s) :: rest => by
      simp only [leafPathsFields, List.map_append]
      rw [leafPathsField_shift pref n s, leafPathsFields_shift pref rest]
termination_by pref sfs => sizeOf sfs

end

/-- A well-formed record schema has at least one leaf name. -/
theorem leafPaths_ne_nil : ∀ (s : Schema), swf s = true → ∀ sfs, s = .record sfs →
    leafPathsFields [] sfs ≠ [] := by
  intro s
  induction s using Schema.recMem with
  | hleaf w =>
      intro hs sfs heq
      exact absurd heq (by simp)
  | hrec sfs0 ih =>
      intro hswf sfs heq
      injection heq with h2
      subst h2
      obtain ⟨hne, -, hsf⟩ := swf_record_elim hswf
      cases sfs0 with
      | nil => exact absurd rfl hne
      | cons hd tl =>
          obtain ⟨m, s0⟩ := hd
          cases s0 with
          | leaf w => simp [leafPathsFields, leafPathsField]
          | record sfs3 =>
              simp only [leafPathsFields, leafPathsField]
              intro hcontra
              obtain ⟨hmap, -⟩ := List.append_eq_nil.mp hcontra
              rw [leafPathsFields_shift ([] ++ [m]) sfs3, List.map_eq_nil] at hmap
              exact ih ((m, Schema.record sfs3)) (by simp)
                (swfFields_mem hsf (m, Schema.record sfs3) (by simp)) sfs3 rfl hmap

/-- Where a leaf name of a record field list comes from: the field named by
its head component — a leaf field for a bare name, a record field (with the
remaining path a leaf name of its sub-schema) for a dashed name. -/
theorem mem_leafPaths_structure : ∀ (sfs : List (String × Schema)) (k : Key),
    k ∈ leafPathsFields [] sfs →
    ∃ p ∈ sfs, headName k = p.1 ∧
      (k.1 = [] → ∃ w, p.2 = Schema.leaf w) ∧
      (∀ c ps, k.1 = c :: ps → ∃ sfs2, p.2 = Schema.record sfs2 ∧
        ((ps, k.2) : Key) ∈ leafPathsFields [] sfs2) := by
  intro sfs
  induction sfs with
  | nil => intro k hk; cases hk
  | cons hd tl ih =>
      obtain ⟨n, s0⟩ := hd
      intro k hk
      simp only [leafPathsFields] at hk
      rcases List.mem_append.mp hk with h1 | h2
      · cases s0 with
        | leaf w =>
            simp only [leafPathsField] at h1
            rcases List.mem_singleton.mp h1 with rfl
            refine ⟨(n, Schema.leaf w), by simp, rfl, fun _ => ⟨w, rfl⟩, ?_⟩
            intro c ps hcontra
            exact absurd hcontra (by simp)
        | record sfs2 =>
            simp only [leafPathsField] at h1
            rw [leafPathsFields_shift ([] ++ [n]) sfs2] at h1
            obtain ⟨k0, hk0, hmap⟩ := List.mem_map.mp h1
            refine ⟨(n, Schema.record sfs2), by simp, ?_, ?_, ?_⟩
            · rw [← hmap]
              simp [headName]
            · intro hnil
              rw [← hmap] at hnil
              exact absurd hnil (by simp)
            · intro c ps hcons
              rw [← hmap] at hcons
              simp only [List.nil_append, List.singleton_append] at hcons
              injection hcons with hc hps
              refine ⟨sfs2, rfl, ?_⟩
              have hsnd : k.2 = k0.2 := by rw [← hmap]
              rw [hsnd, ← hps]
              obtain ⟨k01, k02⟩ := k0
              exact hk0
      · obtain ⟨p, hp, hh1, hh2, hh3⟩ := ih k h2
        exact ⟨p, List.mem_cons_of_mem _ hp, hh1, hh2, hh3⟩

/-- The leaf names of a well-formed schema are prefix-free: no full dashed
leaf name is a namespace prefix of another. -/
theorem leafPaths_prefixFree : ∀ (s : Schema), swf s = true → ∀ sfs, s = .record sfs →
    PrefixFree (leafPathsFields [] sfs) := by
  intro s
  induction s using Schema.recMem with
  | hleaf w =>
      intro hs sfs heq
      exact absurd heq (by simp)
  | hrec sfs0 ih =>
      intro hswf sfs heq
      injection heq with h2
      subst h2
      obtain ⟨-, hnd, hsf⟩ := swf_record_elim hswf
      intro k1 h1 k2 h2 hpre
      obtain ⟨p1, hp1, hh1, hleaf1, hrec1⟩ := mem_leafPaths_structure sfs0 k1 h1
      obtain ⟨p2, hp2, hh2, hleaf2, hrec2⟩ := mem_leafPaths_structure sfs0 k2 h2
      cases hk2p : k2.1 with
      | nil =>
          rw [hk2p] at hpre
          have hle := hpre.length_le
          simp at hle
      | cons c2 ps2 =>
          have hhn2 : headName k2 = c2 := by
            simp [headName, hk2p]
          cases hk1p : k1.1 with
          | nil =>
              rw [hk1p, hk2p] at hpre
              rw [List.nil_append] at hpre
              rcases List.prefix_cons_iff.mp hpre with h0 | ⟨t, ht, -⟩
              · exact absurd h0 (by simp)
              · have hc12 : k1.2 = c2 := List.head_eq_of_cons_eq ht
                have hhn1 : headName k1 = k1.2 := by
                  simp [headName, hk1p]
                have hpeq : p1 = p2 := by
                  apply namesNodup_unique hnd p1 hp1 p2 hp2
                  rw [← hh1, ← hh2, hhn1, hhn2, hc12]
                obtain ⟨w, hw⟩ := hleaf1 hk1p
                obtain ⟨sfs2, hs2, -⟩ := hrec2 c2 ps2 hk2p
                rw [hpeq, hs2] at hw
                exact absurd hw (by simp)
          | cons c1 ps1 =>
              rw [hk1p, hk2p] at hpre
              rw [List.cons_append] at hpre
              rcases List.prefix_cons_iff.mp hpre with h0 | ⟨t, ht, htpre⟩
              · exact absurd h0 (by simp)
              · have hc12 : c1 = c2 := List.head_eq_of_cons_eq ht
                have htt : t = ps1 ++ [k1.2] := (List.tail_eq_of_cons_eq ht).symm
                have hhn1 : headName k1 = c1 := by
                  simp [headName, hk1p]
                have hpeq : p1 = p2 := by
                  apply namesNodup_unique hnd p1 hp1 p2 hp2
                  rw [← hh1, ← hh2, hhn1, hhn2, hc12]
                obtain ⟨sfs2, hs2, hm1⟩ := hrec1 c1 ps1 hk1p
                obtain ⟨sfs2b, hs2b, hm2⟩ := hrec2 c2 ps2 hk2p
                have hs2c : p2.2 = Schema.record sfs2 := by
                  rw [← hpeq]
                  exact hs2
                have hse : sfs2b = sfs2 := by
                  have h0 : Schema.record sfs2b = Schema.record sfs2 := by
                    rw [← hs2b, hs2c]
                  injection h0
                rw [hse] at hm2
                refine ih p2 hp2 (swfFields_mem hsf p2 hp2) sfs2 hs2c
                  ((ps1, k1.2) : Key) hm1 ((ps2, k2.2) : Key) hm2 ?_
                show ps1 ++ [k1.2] <+: ps2
                rw [← htt]
                exact htpre

/-! ## from_flat on a represented mapping (C5) -/

/-- Field-list core: with a trie representing the assignments and every
leaf name assigned, `from_flat`'s field loop succeeds and produces exactly
the field-by-field construction. -/
theorem fromFlatFieldsRepr_aux : ∀ (sfs : List (String × Schema)),
    (∀ p ∈ sfs, ∀ sfs2, p.2 = Schema.record sfs2 → swf p.2 = true →
      ∀ (A : List (Key × Int)) (D : List (String × KW)), TrieRepr A D →
      (∀ k ∈ leafPathsFields [] sfs2, k ∈ keysOf A) →
      ∃ vfs, specBuildFields sfs2 A = some vfs ∧ fromFlatFields sfs2 D = .ok vfs) →
    swfFields sfs = true →
    ∀ (A : List (Key × Int)) (D : List (String × KW)), TrieRepr A D →
    (∀ k ∈ leafPathsFields [] sfs, k ∈ keysOf A) →
    ∃ vfs, specBuildFields sfs A = some vfs ∧ fromFlatFields sfs D = .ok vfs := by
  intro sfs
  induction sfs with
  | nil =>
      intro _ _ A D _ _
      exact ⟨[], rfl, rfl⟩
  | cons hd tl ih =>
      intro IHm hswf A D hrep hcov
      obtain ⟨n, s0⟩ := hd
      obtain ⟨hval, hdict, hsub⟩ := hrep
      simp only [swfFields, Bool.and_eq_true] at hswf
      have hcovtl : ∀ k ∈ leafPathsFields [] tl, k ∈ keysOf A := fun k hk =>
        hcov k (by
          simp only [leafPathsFields]
          exact List.mem_append.mpr (Or.inr hk))
      obtain ⟨vtl, hspectl, hfftl⟩ := ih (fun p hp => IHm p (List.mem_cons_of_mem _ hp))
        hswf.2 A D (TrieRepr.intro hval hdict hsub) hcovtl
      cases s0 with
      | leaf w =>
          have hkmem : ((([] : List String), n) : Key) ∈ keysOf A := hcov ([], n) (by
            simp only [leafPathsFields, leafPathsField]
            exact List.mem_append.mpr (Or.inl (List.mem_singleton.mpr rfl)))
          obtain ⟨i, hki⟩ := keyLookup_of_mem_keys A ([], n) hkmem
          have hds : dsGet D n = some (KW.val i) := (hval n i).mp hki
          refine ⟨(n, FValue.leaf i) :: vtl, ?_, ?_⟩
          · simp only [specBuildFields, specBuildField, hki, hspectl]
          · simp only [fromFlatFields, hds, fieldFromFlat, hfftl]
      | record sfs2 =>
          have hswf2 : swf (Schema.record sfs2) = true := hswf.1
          have hlp_ne : leafPathsFields [] sfs2 ≠ [] :=
            leafPaths_ne_nil (Schema.record sfs2) hswf2 sfs2 rfl
          have hmemlift : ∀ k0 ∈ leafPathsFields [] sfs2,
              ((n :: k0.1, k0.2) : Key) ∈ keysOf A := by
            intro k0 hk0
            refine hcov ((n :: k0.1, k0.2)) ?_
            simp only [leafPathsFields, leafPathsField]
            apply List.mem_append.mpr
            left
            rw [leafPathsFields_shift ([] ++ [n]) sfs2]
            exact List.mem_map.mpr ⟨k0, hk0, by simp⟩
          have hcov2 : ∀ k ∈ leafPathsFields [] sfs2, k ∈ keysOf (stripNS n A) := by
            intro k hk
            exact mem_keysOf_stripNS n A k.1 k.2 (hmemlift k hk)
          have hpe : ∃ e ∈ A, ∃ ps tk, e.1 = (n :: ps, tk) := by
            obtain ⟨k0, hk0⟩ : ∃ k0, k0 ∈ leafPathsFields [] sfs2 := by
              cases hL : leafPathsFields [] sfs2 with
              | nil => exact absurd hL hlp_ne
              | cons a as => exact ⟨a, by simp⟩
            have hmem := hmemlift k0 hk0
            simp only [keysOf] at hmem
            obtain ⟨e, he, hke⟩ := List.mem_map.mp hmem
            exact ⟨e, he, k0.1, k0.2, hke⟩
          obtain ⟨D2, hD2⟩ := (hdict n).mp hpe
          have hrep2 := hsub n D2 hD2
          obtain ⟨vfs2, hspec2, hff2⟩ := IHm (n, Schema.record sfs2) (by simp) sfs2 rfl hswf2
            (stripNS n A) D2 hrep2 hcov2
          refine ⟨(n, FValue.record vfs2) :: vtl, ?_, ?_⟩
          · simp only [specBuildFields, specBuildField, hspec2, hspectl]
          · simp only [fromFlatFields, hD2, fieldFromFlat, hff2, hfftl, Except.map]

/-- A well-formed record schema reconstructed from a represented mapping
that assigns every leaf name: `from_flat` succeeds and produces the
field-by-field construction. -/
theorem fromFlatRecordRepr : ∀ (s : Schema), swf s = true →
    ∀ sfs, s = Schema.record sfs →
    ∀ (A : List (Key × Int)) (D : List (String × KW)), TrieRepr A D →
    (∀ k ∈ leafPathsFields [] sfs, k ∈ keysOf A) →
    ∃ vfs, specBuildFields sfs A = some vfs ∧ fromFlatFields sfs D = .ok vfs := by
  intro s
  induction s using Schema.recMem with
  | hleaf w =>
      intro _ sfs heq
      exact absurd heq (by simp)
  | hrec sfs0 ih =>
      intro hswf sfs heq
      injection heq with h2
      subst h2
      obtain ⟨-, -, hsf⟩ := swf_record_elim hswf
      intro A D hrep hcov
      exact fromFlatFieldsRepr_aux sfs0
        (fun p hp sfs2 hps hsw A2 D2 hrep2 hcov2 => ih p hp hsw sfs2 hps A2 D2 hrep2 hcov2)
        hsf A D hrep hcov

/-- C5: `quick` zips the positional arguments onto the declared dashed
names and delegates to `from_flat` (that is its definition), and for a
well-formed schema whose declared quick-argument names are exactly the
schema's leaf names — one value per leaf, in any declared order — the result
is exactly the value obtained by constructing the record field by field,
each leaf receiving the argument zipped onto its name. -/
theorem claim_C5_quick_equivalence (sfs : List (String × Schema)) (qargs : List Key)
    (args : List Int) (hswf : swf (Schema.record sfs) = true)
    (hlen : args.length = qargs.length) (hnd : qargs.Nodup)
    (hsub1 : ∀ k ∈ qargs, k ∈ leafPathsFields [] sfs)
    (hsub2 : ∀ k ∈ leafPathsFields [] sfs, k ∈ qargs) :
    ∃ vfs, specBuildFields sfs (qargs.zip args) = some vfs ∧
      quick sfs qargs args = .ok (FValue.record vfs) := by
  have hkeys : keysOf (qargs.zip args) = qargs := by
    simp only [keysOf]
    exact List.map_fst_zip qargs args (le_of_eq hlen.symm)
  have hndk : (keysOf (qargs.zip args)).Nodup := by
    rw [hkeys]
    exact hnd
  have hpfk : PrefixFree (keysOf (qargs.zip args)) := by
    rw [hkeys]
    exact prefixFree_subset (leafPaths_prefixFree (Schema.record sfs) hswf sfs rfl) hsub1
  have hcov : ∀ k ∈ leafPathsFields [] sfs, k ∈ keysOf (qargs.zip args) := by
    intro k hk
    rw [hkeys]
    exact hsub2 k hk
  unfold quick pyFromFlat
  by_cases hb : (qargs.zip args).any (fun e => !e.1.1.isEmpty) = true
  · rw [if_pos hb]
    obtain ⟨D, hD, hrep⟩ := unflatten_spec (qargs.zip args) hndk hpfk
    rw [hD]
    obtain ⟨vfs, hspec, hff⟩ := fromFlatRecordRepr (Schema.record sfs) hswf sfs rfl
      (qargs.zip args) D hrep hcov
    refine ⟨vfs, hspec, ?_⟩
    show Except.map FValue.record (fromFlatFields sfs D) = Except.ok (FValue.record vfs)
    rw [hff]
    rfl
  · rw [if_neg hb]
    have hdashfree : ∀ e ∈ qargs.zip args, e.1.1 = ([] : List String) := by
      intro e he
      have hfalse := List.any_eq_false.mp ((Bool.not_eq_true _).mp hb) e he
      simp at hfalse
      exact hfalse
    have hrep := trieRepr_flat (qargs.zip args) hdashfree
    obtain ⟨vfs, hspec, hff⟩ := fromFlatRecordRepr (Schema.record sfs) hswf sfs rfl
      (qargs.zip args) _ hrep hcov
    refine ⟨vfs, hspec, ?_⟩
    rw [hff]
    rfl

/-- C5 witness: the `Message`-like schema with its declared quick-argument
order `meta-address, meta-tag, data` (note: not the declared field order). -/
theorem claim_C5_witness :
    ∃ vfs, specBuildFields msgSchemaFields
        ([((["meta"], "address") : Key), (["meta"], "tag"), ([], "data")].zip
          [(10 : Int), 42, 5]) = some vfs ∧
      quick msgSchemaFields [((["meta"], "address") : Key), (["meta"], "tag"), ([], "data")]
        [(10 : Int), 42, 5] = .ok (FValue.record vfs) :=
  claim_C5_quick_equivalence msgSchemaFields
    [((["meta"], "address") : Key), (["meta"], "tag"), ([], "data")] [(10 : Int), 42, 5]
    (by decide) rfl (by decide) (by decide) (by decide)

end XC
